import Mathlib

/-!
Verification of the traffic-shifting core of `senza` (`senza/traffic.py`).

The weight maps of the Python code are `dict`s keyed by identifier strings.
They are embedded as association lists with pairwise-distinct keys, built in
insertion order exactly as the code builds its dicts.  Machine integers of the
code are embedded as `Int`; the two float divisions of the code
(`calculation_error / partial_count` and the delta computation in
`change_version_traffic`), each immediately truncated by `int(...)`, are
embedded as `Int.tdiv` (truncation toward zero), which agrees with the float
computation for all magnitudes reachable here.  `assert` statements and
`KeyError`-raising dictionary lookups are embedded by returning `Option`:
`none` models a crash of the Python code.
-/

namespace Senza

/-- `PERCENT_RESOLUTION = 2` from `traffic.py`. -/
def PERCENT_RESOLUTION : Int := 2

/-- `FULL_PERCENTAGE = PERCENT_RESOLUTION * 100` from `traffic.py`. -/
def FULL_PERCENTAGE : Int := PERCENT_RESOLUTION * 100

/-- One Route53 resource record, with the fields `traffic.py` reads:
`r['Type']`, `r['Name']`, `r['SetIdentifier']`, `r['Weight']`, `r['TTL']`,
and the single resource-record value (the load balancer DNS name). -/
structure RouteRecord where
  typ : String
  name : String
  setIdentifier : String
  weight : Int
  ttl : Int
  target : String
deriving DecidableEq

/-- The record filter `r['Type'] == 'CNAME' and r['Name'] == dns_name`. -/
def matchesRecord (dnsName : String) (r : RouteRecord) : Prop :=
  r.typ = "CNAME" ∧ r.name = dnsName

instance (dnsName : String) (r : RouteRecord) : Decidable (matchesRecord dnsName r) := by
  unfold matchesRecord; infer_instance

/-- A Python `dict` from identifiers to weights, as an association list in
insertion order (the dicts built by `traffic.py` have pairwise distinct keys). -/
abbrev WMap := List (String × Int)

/-- The key list of a weight map. -/
def keysOf (m : WMap) : List String := m.map Prod.fst

/-- Dictionary lookup `m[k]` that may fail: `none` models a `KeyError`. -/
def lookupOpt : WMap → String → Option Int
  | [], _ => none
  | p :: rest, k => if p.1 = k then some p.2 else lookupOpt rest k

/-- Dictionary lookup with default 0 (used where the key is known present). -/
def lookupD (m : WMap) (k : String) : Int := (lookupOpt m k).getD 0

/-- `sum(m.values())`. -/
def sumW (m : WMap) : Int := (m.map Prod.snd).sum

/-- Dictionary assignment `m[k] = v`: replace the entry of an existing key in
place, otherwise append the new key at the end (Python dict semantics on
distinct-key association lists). -/
def setW : WMap → String → Int → WMap
  | [], k, v => [(k, v)]
  | p :: rest, k, v => if p.1 = k then (k, v) :: rest else p :: setW rest k v

/-- The record loop of `get_weights` (`traffic.py` lines 21-32), carrying the
accumulated dict, partial count and partial sum. -/
def get_weights_loop (dnsName identifier : String) :
    List RouteRecord → WMap → Nat → Int → WMap × Nat × Int
  | [], m, pc, ps => (m, pc, ps)
  | r :: rest, m, pc, ps =>
    if matchesRecord dnsName r then
      let w : Int := if r.weight ≠ 0 then r.weight else 0
      let m1 := setW m r.setIdentifier w
      if r.setIdentifier ≠ identifier ∧ 0 < w then
        get_weights_loop dnsName identifier rest m1 (pc + 1) (ps + w)
      else
        get_weights_loop dnsName identifier rest m1 pc ps
    else
      get_weights_loop dnsName identifier rest m pc ps

/-- `if ident not in m: m[ident] = 0`. -/
def ensureKey (m : WMap) (k : String) : WMap :=
  if k ∈ keysOf m then m else m ++ [(k, 0)]

/-- `get_weights` from `traffic.py`: weight-by-identifier dict, partial count
and partial weight sum over non-target identifiers with positive weight. -/
def get_weights (dnsName identifier : String) (rr : List RouteRecord)
    (allIdentifiers : List String) : WMap × Nat × Int :=
  match get_weights_loop dnsName identifier rr [] 0 0 with
  | (m, pc, ps) =>
    let m1 := ensureKey m identifier
    let m2 := allIdentifiers.foldl ensureKey m1
    (m2, pc, ps)

/-- The per-identifier weight computed by `calculate_new_weights`. -/
def allocWeight (delta : Int) (identifier : String) (percentage : Int)
    (i : String) (w : Int) : Int :=
  if i = identifier then percentage
  else if percentage = FULL_PERCENTAGE then 0
  else if 0 < w then max 1 (w + delta) else 0

/-- `calculate_new_weights` from `traffic.py`: the candidate new weight dict
and the per-identifier delta dict `new - old`. -/
def calculate_new_weights (delta : Int) (identifier : String) (known : WMap)
    (percentage : Int) : WMap × WMap :=
  (known.map fun p => (p.1, allocWeight delta identifier percentage p.1 p.2),
   known.map fun p => (p.1, allocWeight delta identifier percentage p.1 p.2 - p.2))

/-- The per-candidate adjustment of `compensate` (`traffic.py` lines 73-77):
`part = calculation_error / partial_count`, then `int(max(1, part))` for a
positive quotient and `int(min(-1, part))` otherwise.  `int(...)` truncates
toward zero, so on integers this is `Int.tdiv` clamped to magnitude ≥ 1. -/
def compensatePart (calculationError : Int) (partialCount : Nat) : Int :=
  if 0 < calculationError then max 1 (calculationError.tdiv partialCount)
  else min (-1) (calculationError.tdiv partialCount)

/-- Stable insertion of one element for `sortByDesc` (an element is placed
after all earlier elements it does not strictly precede). -/
def insertStable (le : String → String → Bool) (a : String) : List String → List String
  | [] => [a]
  | b :: rest => if le a b then a :: b :: rest else b :: insertStable le a rest

/-- Stable sort, modelling Python's stable `sorted`. -/
def sortStable (le : String → String → Bool) : List String → List String
  | [] => []
  | a :: rest => insertStable le a (sortStable le rest)

/-- Python's string comparison: lexicographic by code point.  This equals
Lean's `String` order (`versionLe_iff`), written on the character lists so
that it evaluates by kernel reduction. -/
def versionLe (a b : String) : Bool := !decide (b.data < a.data)

/-- `sorted(m.keys(), key=lambda x: identifier_versions[x], reverse=True)`:
stable descending order by version label. -/
def candidateOrder (m : WMap) (versions : String → String) : List String :=
  sortStable (fun a b => versionLe (versions b) (versions a)) (keysOf m)

/-- The compensation loop of `compensate` (`traffic.py` lines 79-90): walk the
candidates, skip the target and any candidate whose weight would drop to 0 or
below, otherwise apply `part`, record it, and stop once the error is 0.
Returns the residual error, the updated weights and the compensations. -/
def compensateLoop (identifier : String) (part : Int) :
    List String → Int → WMap → WMap → Int × WMap × WMap
  | [], err, w, c => (err, w, c)
  | i :: rest, err, w, c =>
    if i = identifier then compensateLoop identifier part rest err w c
    else
      let nw := lookupD w i + part
      if nw ≤ 0 then compensateLoop identifier part rest err w c
      else
        let w1 := setW w i nw
        let err1 := err - part
        let c1 := setW c i part
        if err1 = 0 then (err1, w1, c1)
        else compensateLoop identifier part rest err1 w1 c1

/-- `compensate` from `traffic.py`.  Returns the final percentage, the updated
weight dict, the updated compensation dict, and whether the boundary-case
warning was emitted.  `none` models the failure of `assert partial_count`. -/
def compensate (calculationError : Int) (compensations : WMap) (identifier : String)
    (newRecordWeights : WMap) (partialCount : Nat) (percentage : Int)
    (versions : String → String) : Option (Int × WMap × WMap × Bool) :=
  if partialCount = 0 then none
  else
    let part := compensatePart calculationError partialCount
    match compensateLoop identifier part (candidateOrder newRecordWeights versions)
        calculationError newRecordWeights compensations with
    | (err, w, c) =>
      if err ≠ 0 then
        some (percentage + err, setW w identifier (percentage + err),
              setW c identifier err, true)
      else
        some (percentage, w, c, false)

/-- The outcome of one `change_version_traffic` run: final weights,
compensations, deltas, the delta handed to the allocator, the final
percentage, whether the boundary-case warning was emitted, and whether the
last-version-disable path (the "record removed" message) was taken. -/
structure ShiftResult where
  newWeights : WMap
  comps : WMap
  deltas : WMap
  delta : Int
  percentage : Int
  warned : Bool
  removed : Bool
deriving DecidableEq

/-- Lines 322-330 of `traffic.py`: the initial compensations dict, the
allocator delta and the effective percentage.  With `partial_count` non-zero
the delta is `int((FULL_PERCENTAGE - percentage - partial_sum) / partial_count)`;
otherwise `delta = 0` and a positive percentage is promoted to
`FULL_PERCENTAGE` with the gap recorded as a compensation on the target. -/
def compDeltaPct (identifier : String) (partialCount : Nat)
    (partialSum percentage : Int) : WMap × Int × Int :=
  if partialCount ≠ 0 then
    ([], (FULL_PERCENTAGE - percentage - partialSum).tdiv partialCount, percentage)
  else if 0 < percentage then
    ([(identifier, FULL_PERCENTAGE - percentage)], 0, FULL_PERCENTAGE)
  else
    ([], 0, percentage)

/-- The weight-computation core of `change_version_traffic` (`traffic.py`
lines 316-337), after the requested percentage has been scaled to internal
units and `get_weights` has produced `(known, partialCount, partialSum)`.
`none` models a failed `assert` (`assert partial_count` inside `compensate`,
or `assert sum(new_record_weights.values()) == FULL_PERCENTAGE`). -/
def change_version_traffic_core (identifier : String) (versions : String → String)
    (known : WMap) (partialCount : Nat) (partialSum : Int) (percentage : Int) :
    Option ShiftResult :=
  if partialCount = 0 ∧ percentage = 0 then
    some ⟨known.map fun p => (p.1, 0), [], [], 0, percentage, false, true⟩
  else
    match compDeltaPct identifier partialCount partialSum percentage with
    | (comps0, delta, pct) =>
      match calculate_new_weights delta identifier known pct with
      | (newW, deltas) =>
        let calcError := FULL_PERCENTAGE - sumW newW
        if calcError ≠ 0 ∧ calcError < FULL_PERCENTAGE then
          match compensate calcError comps0 identifier newW partialCount pct versions with
          | none => none
          | some (pct1, newW1, comps1, warned) =>
            if sumW newW1 = FULL_PERCENTAGE then
              some ⟨newW1, comps1, deltas, delta, pct1, warned, false⟩
            else none
        else
          if sumW newW = FULL_PERCENTAGE then
            some ⟨newW, comps0, deltas, delta, pct, false, false⟩
          else none

/-- Python `int(...)` on a rational value: truncation toward zero. -/
def int_trunc (q : ℚ) : Int := if 0 ≤ q then ⌊q⌋ else ⌈q⌉

/-- `change_version_traffic` down to the computed weights: scale the requested
percentage by `percentage = int(percentage * PERCENT_RESOLUTION)`
(`traffic.py` line 312), read the snapshot with `get_weights`, and run the
weight-computation core. -/
def change_version_traffic_model (identifier : String) (versions : String → String)
    (percentage : ℚ) (dnsName : String) (rr : List RouteRecord)
    (allIdentifiers : List String) : Option ShiftResult :=
  let pInternal := int_trunc (percentage * (PERCENT_RESOLUTION : ℚ))
  match get_weights dnsName identifier rr allIdentifiers with
  | (known, pc, ps) => change_version_traffic_core identifier versions known pc ps pInternal

/-- A Route53 change action. -/
inductive ChangeAction
  | upsert
  | delete
deriving DecidableEq

/-- One element of the change batch of `set_new_weights`. -/
structure Change where
  action : ChangeAction
  record : RouteRecord
deriving DecidableEq

/-- The brand-new record synthesized by `set_new_weights` (lines 122-129). -/
def freshRecord (dnsName identifier lbDnsName : String) (w : Int) : RouteRecord :=
  ⟨"CNAME", dnsName, identifier, w, 20, lbDnsName⟩

/-- The record loop of `set_new_weights` (lines 109-121): the change list, the
record list after the in-place weight mutations, and `did_the_upsert`.
`none` models the `KeyError` of `new_record_weights[r['SetIdentifier']]`. -/
def build_changes (dnsName identifier : String) (newW : WMap) :
    List RouteRecord → Option (List Change × List RouteRecord × Bool)
  | [] => some ([], [], false)
  | r :: rest =>
    if matchesRecord dnsName r then
      match lookupOpt newW r.setIdentifier with
      | none => none
      | some w =>
        match build_changes dnsName identifier newW rest with
        | none => none
        | some (cs, rs, du) =>
          if w ≠ 0 then
            let r1 := { r with weight := w }
            let cs0 := if r.weight ≠ w then [Change.mk .upsert r1] else []
            some (cs0 ++ cs, r1 :: rs, (decide (r.setIdentifier = identifier) || du))
          else
            some (Change.mk .delete r :: cs, r :: rs, du)
    else
      match build_changes dnsName identifier newW rest with
      | none => none
      | some (cs, rs, du) => some (cs, r :: rs, du)

/-- What `set_new_weights` reports (lines 130-140): an empty change list is
"not changed", an all-zero weight map is "DISABLED", otherwise plain ok. -/
inductive SinkReport
  | notChanged
  | disabled
  | applied
deriving DecidableEq

/-- `set_new_weights` from `traffic.py`: the change batch handed to Route53,
the record list after the in-place mutations, and the report. -/
def set_new_weights (dnsName identifier lbDnsName : String) (newW : WMap)
    (rr : List RouteRecord) : Option (List Change × List RouteRecord × SinkReport) :=
  match lookupOpt newW identifier with
  | none => none
  | some wid =>
    match build_changes dnsName identifier newW rr with
    | none => none
    | some (cs, rs, du) =>
      let changes :=
        if 0 < wid ∧ du = false then
          cs ++ [Change.mk .upsert (freshRecord dnsName identifier lbDnsName wid)]
        else cs
      if changes = [] then some (changes, rs, .notChanged)
      else if sumW newW = 0 then some (changes, rs, .disabled)
      else some (changes, rs, .applied)

/-- Modelled from the spec (§4.3), for comparison with `compensatePart`: the
spec's claimed per-candidate adjustment, "`error / partialCount` rounded away
from zero to an integer of magnitude at least 1 (ceiling of the absolute
quotient, sign-preserving)". -/
def specRoundAwayPart (calculationError : Int) (partialCount : Nat) : Int :=
  if 0 < calculationError then (calculationError + partialCount - 1).tdiv partialCount
  else -((-calculationError + partialCount - 1).tdiv partialCount)

/-! ### Association-list lemmas -/

theorem versionLe_iff (a b : String) : versionLe a b = true ↔ a ≤ b := by
  simp [versionLe, String.le_iff_toList_le]

theorem keysOf_nil : keysOf [] = [] := rfl

theorem keysOf_cons (p : String × Int) (rest : WMap) :
    keysOf (p :: rest) = p.1 :: keysOf rest := rfl

theorem lookupOpt_cons (p : String × Int) (rest : WMap) (k : String) :
    lookupOpt (p :: rest) k = if p.1 = k then some p.2 else lookupOpt rest k := rfl

theorem sumW_nil : sumW [] = 0 := rfl

theorem sumW_cons (p : String × Int) (rest : WMap) :
    sumW (p :: rest) = p.2 + sumW rest := by
  simp [sumW]

theorem mem_keysOf_cons {p : String × Int} {rest : WMap} {k : String}
    (h : k ∈ keysOf (p :: rest)) : p.1 = k ∨ k ∈ keysOf rest := by
  rw [keysOf_cons] at h
  rcases List.mem_cons.1 h with h1 | h1
  · exact Or.inl h1.symm
  · exact Or.inr h1

theorem lookupOpt_isSome_iff (m : WMap) (k : String) :
    (lookupOpt m k).isSome = true ↔ k ∈ keysOf m := by
  induction m with
  | nil => simp [lookupOpt, keysOf_nil]
  | cons p rest ih =>
    rw [lookupOpt_cons, keysOf_cons]
    by_cases hp : p.1 = k
    · simp [hp]
    · rw [if_neg hp]
      simp only [List.mem_cons, ih]
      constructor
      · exact fun h => Or.inr h
      · rintro (h | h)
        · exact absurd h.symm hp
        · exact h

theorem lookupOpt_eq_none (m : WMap) (k : String) (h : k ∉ keysOf m) :
    lookupOpt m k = none := by
  cases ho : lookupOpt m k with
  | none => rfl
  | some v => exact absurd ((lookupOpt_isSome_iff m k).1 (by simp [ho])) h

theorem lookupD_eq_zero_of_not_mem (m : WMap) (k : String) (h : k ∉ keysOf m) :
    lookupD m k = 0 := by
  simp [lookupD, lookupOpt_eq_none m k h]

theorem mem_keysOf_of_lookupD_ne (m : WMap) (k : String) (h : lookupD m k ≠ 0) :
    k ∈ keysOf m := by
  by_contra hk
  exact h (lookupD_eq_zero_of_not_mem m k hk)

theorem setW_cons (p : String × Int) (rest : WMap) (k : String) (v : Int) :
    setW (p :: rest) k v = if p.1 = k then (k, v) :: rest else p :: setW rest k v := rfl

theorem lookupOpt_setW_self (m : WMap) (k : String) (v : Int) :
    lookupOpt (setW m k v) k = some v := by
  induction m with
  | nil => simp [setW, lookupOpt]
  | cons p rest ih =>
    rw [setW_cons]
    by_cases hp : p.1 = k
    · rw [if_pos hp, lookupOpt_cons]
      simp
    · rw [if_neg hp, lookupOpt_cons, if_neg hp]
      exact ih

theorem lookupD_setW_self (m : WMap) (k : String) (v : Int) :
    lookupD (setW m k v) k = v := by
  simp [lookupD, lookupOpt_setW_self]

theorem lookupOpt_setW_ne (m : WMap) (k k' : String) (v : Int) (h : k' ≠ k) :
    lookupOpt (setW m k v) k' = lookupOpt m k' := by
  induction m with
  | nil =>
    have h1 : ¬(k = k') := fun hh => h hh.symm
    simp [setW, lookupOpt, h1]
  | cons p rest ih =>
    rw [setW_cons]
    by_cases hp : p.1 = k
    · rw [if_pos hp, lookupOpt_cons, lookupOpt_cons]
      have h1 : ¬(k = k') := fun hh => h hh.symm
      rw [if_neg h1, if_neg (by rw [hp]; exact h1)]
    · rw [if_neg hp, lookupOpt_cons, lookupOpt_cons]
      by_cases hp' : p.1 = k'
      · rw [if_pos hp', if_pos hp']
      · rw [if_neg hp', if_neg hp']
        exact ih

theorem lookupD_setW_ne (m : WMap) (k k' : String) (v : Int) (h : k' ≠ k) :
    lookupD (setW m k v) k' = lookupD m k' := by
  simp [lookupD, lookupOpt_setW_ne m k k' v h]

theorem keysOf_setW_of_mem (m : WMap) (k : String) (v : Int) (h : k ∈ keysOf m) :
    keysOf (setW m k v) = keysOf m := by
  induction m with
  | nil => simp [keysOf_nil] at h
  | cons p rest ih =>
    rw [setW_cons]
    by_cases hp : p.1 = k
    · rw [if_pos hp, keysOf_cons, keysOf_cons, hp]
    · have hr : k ∈ keysOf rest := by
        rcases mem_keysOf_cons h with h1 | h1
        · exact absurd h1 hp
        · exact h1
      rw [if_neg hp, keysOf_cons, keysOf_cons, ih hr]

theorem keysOf_setW_of_not_mem (m : WMap) (k : String) (v : Int) (h : k ∉ keysOf m) :
    keysOf (setW m k v) = keysOf m ++ [k] := by
  induction m with
  | nil => simp [setW, keysOf]
  | cons p rest ih =>
    have hp : p.1 ≠ k := by
      intro hh; exact h (by rw [keysOf_cons, hh]; exact List.mem_cons_self _ _)
    have hr : k ∉ keysOf rest := by
      intro hh; exact h (by rw [keysOf_cons]; exact List.mem_cons_of_mem _ hh)
    rw [setW_cons, if_neg hp, keysOf_cons, keysOf_cons, ih hr]
    rfl

theorem mem_keysOf_setW (m : WMap) (k k' : String) (v : Int) (h : k' ∈ keysOf m) :
    k' ∈ keysOf (setW m k v) := by
  by_cases hk : k ∈ keysOf m
  · rw [keysOf_setW_of_mem m k v hk]; exact h
  · rw [keysOf_setW_of_not_mem m k v hk]; exact List.mem_append_left _ h

theorem mem_keysOf_setW_self (m : WMap) (k : String) (v : Int) :
    k ∈ keysOf (setW m k v) := by
  by_cases hk : k ∈ keysOf m
  · rw [keysOf_setW_of_mem m k v hk]; exact hk
  · rw [keysOf_setW_of_not_mem m k v hk]; simp

theorem nodup_keysOf_setW (m : WMap) (k : String) (v : Int)
    (h : (keysOf m).Nodup) : (keysOf (setW m k v)).Nodup := by
  by_cases hk : k ∈ keysOf m
  · rw [keysOf_setW_of_mem m k v hk]; exact h
  · rw [keysOf_setW_of_not_mem m k v hk]
    rw [List.nodup_append]
    exact ⟨h, List.nodup_singleton k, by simpa [List.disjoint_singleton] using hk⟩

theorem sumW_setW (m : WMap) (k : String) (v : Int) (h : k ∈ keysOf m) :
    sumW (setW m k v) = sumW m - lookupD m k + v := by
  induction m with
  | nil => simp [keysOf_nil] at h
  | cons p rest ih =>
    rw [setW_cons]
    by_cases hp : p.1 = k
    · rw [if_pos hp, sumW_cons, sumW_cons]
      simp only [lookupD, lookupOpt_cons, if_pos hp, Option.getD_some]
      ring
    · have hr : k ∈ keysOf rest := by
        rcases mem_keysOf_cons h with h1 | h1
        · exact absurd h1 hp
        · exact h1
      rw [if_neg hp, sumW_cons, sumW_cons]
      simp only [lookupD, lookupOpt_cons, if_neg hp]
      rw [ih hr]
      simp only [lookupD]
      ring

theorem sumW_append (m l : WMap) : sumW (m ++ l) = sumW m + sumW l := by
  simp [sumW]

theorem lookupOpt_append_of_mem (m l : WMap) (k : String) (h : k ∈ keysOf m) :
    lookupOpt (m ++ l) k = lookupOpt m k := by
  induction m with
  | nil => simp [keysOf_nil] at h
  | cons p rest ih =>
    rw [List.cons_append, lookupOpt_cons, lookupOpt_cons]
    by_cases hp : p.1 = k
    · rw [if_pos hp, if_pos hp]
    · have hr : k ∈ keysOf rest := by
        rcases mem_keysOf_cons h with h1 | h1
        · exact absurd h1 hp
        · exact h1
      rw [if_neg hp, if_neg hp, ih hr]

theorem lookupOpt_append_of_not_mem (m l : WMap) (k : String) (h : k ∉ keysOf m) :
    lookupOpt (m ++ l) k = lookupOpt l k := by
  induction m with
  | nil => simp
  | cons p rest ih =>
    have hp : p.1 ≠ k := by
      intro hh; exact h (by rw [keysOf_cons, hh]; exact List.mem_cons_self _ _)
    have hr : k ∉ keysOf rest := by
      intro hh; exact h (by rw [keysOf_cons]; exact List.mem_cons_of_mem _ hh)
    rw [List.cons_append, lookupOpt_cons, if_neg hp, ih hr]

theorem lookupOpt_mapVal (m : WMap) (f : String → Int → Int) (k : String) :
    lookupOpt (m.map fun p => (p.1, f p.1 p.2)) k = (lookupOpt m k).map (f k) := by
  induction m with
  | nil => simp [lookupOpt]
  | cons p rest ih =>
    rw [List.map_cons, lookupOpt_cons, lookupOpt_cons]
    by_cases hp : p.1 = k
    · simp [hp]
    · simp [hp, ih]

theorem keysOf_mapVal (m : WMap) (f : String → Int → Int) :
    keysOf (m.map fun p => (p.1, f p.1 p.2)) = keysOf m := by
  simp [keysOf]

theorem sumW_nonneg (m : WMap) (hpos : ∀ p ∈ m, 0 ≤ p.2) : 0 ≤ sumW m := by
  induction m with
  | nil => simp [sumW_nil]
  | cons p rest ih =>
    rw [sumW_cons]
    have h1 := hpos p (List.mem_cons_self _ _)
    have h2 := ih fun q hq => hpos q (List.mem_cons_of_mem _ hq)
    omega

theorem lookupD_le_sumW (m : WMap) (k : String) (hpos : ∀ p ∈ m, 0 ≤ p.2)
    (h : k ∈ keysOf m) : lookupD m k ≤ sumW m := by
  induction m with
  | nil => simp [keysOf_nil] at h
  | cons p rest ih =>
    have hrest : ∀ q ∈ rest, 0 ≤ q.2 := fun q hq => hpos q (List.mem_cons_of_mem _ hq)
    have hsum : 0 ≤ sumW rest := sumW_nonneg rest hrest
    have hp2 : 0 ≤ p.2 := hpos p (List.mem_cons_self _ _)
    rw [sumW_cons]
    simp only [lookupD, lookupOpt_cons]
    by_cases hp : p.1 = k
    · rw [if_pos hp]
      simp only [Option.getD_some]
      omega
    · have hr : k ∈ keysOf rest := by
        rcases mem_keysOf_cons h with h1 | h1
        · exact absurd h1 hp
        · exact h1
      rw [if_neg hp]
      have := ih hrest hr
      simp only [lookupD] at this
      omega

theorem sumW_mapVal_zero (m : WMap) (f : String → Int → Int)
    (h : ∀ p ∈ m, f p.1 p.2 = 0) :
    sumW (m.map fun p => (p.1, f p.1 p.2)) = 0 := by
  induction m with
  | nil => simp [sumW]
  | cons p rest ih =>
    rw [List.map_cons, sumW_cons]
    rw [h p (List.mem_cons_self _ _), ih fun q hq => h q (List.mem_cons_of_mem _ hq)]
    simp

theorem sumW_mapVal_single (m : WMap) (f : String → Int → Int) (id0 : String)
    (hnd : (keysOf m).Nodup) (hid : id0 ∈ keysOf m) (c : Int)
    (hzero : ∀ p ∈ m, p.1 ≠ id0 → f p.1 p.2 = 0)
    (hc : ∀ w, f id0 w = c) :
    sumW (m.map fun p => (p.1, f p.1 p.2)) = c := by
  induction m with
  | nil => simp [keysOf_nil] at hid
  | cons p rest ih =>
    have hnd' := by rw [keysOf_cons] at hnd; exact List.nodup_cons.1 hnd
    by_cases hp : p.1 = id0
    · have hrz : ∀ q ∈ rest, f q.1 q.2 = 0 := by
        intro q hq
        have hq1 : q.1 ≠ id0 := by
          intro hqe
          exact hnd'.1 (by rw [hp, ← hqe]; exact List.mem_map_of_mem _ hq)
        exact hzero q (List.mem_cons_of_mem _ hq) hq1
      rw [List.map_cons, sumW_cons, hp, hc, sumW_mapVal_zero rest f hrz]
      simp
    · have hr : id0 ∈ keysOf rest := by
        rcases mem_keysOf_cons hid with h1 | h1
        · exact absurd h1 hp
        · exact h1
      rw [List.map_cons, sumW_cons, hzero p (List.mem_cons_self _ _) hp,
        ih hnd'.2 hr fun q hq hq1 => hzero q (List.mem_cons_of_mem _ hq) hq1]
      simp

theorem mem_sortStable (le : String → String → Bool) (l : List String) (a : String) :
    a ∈ sortStable le l ↔ a ∈ l := by
  have hins : ∀ (x : String) (l' : List String) (b : String),
      b ∈ insertStable le x l' ↔ b = x ∨ b ∈ l' := by
    intro x l'
    induction l' with
    | nil => intro b; simp [insertStable]
    | cons y rest ih =>
      intro b
      rw [insertStable]
      by_cases hle : le x y = true
      · rw [if_pos hle]
        simp only [List.mem_cons]
      · rw [if_neg hle]
        simp only [List.mem_cons, ih]
        tauto
  induction l with
  | nil => simp [sortStable]
  | cons x rest ih =>
    rw [sortStable, hins]
    simp [List.mem_cons, ih]

theorem mem_candidateOrder (m : WMap) (versions : String → String) (i : String) :
    i ∈ candidateOrder m versions ↔ i ∈ keysOf m := by
  rw [candidateOrder, mem_sortStable]

/-! ### Compensation-engine lemmas -/

theorem compensateLoop_nil (id0 : String) (part err : Int) (w c : WMap) :
    compensateLoop id0 part [] err w c = (err, w, c) := rfl

theorem compensateLoop_cons (id0 : String) (part err : Int) (w c : WMap)
    (i : String) (rest : List String) :
    compensateLoop id0 part (i :: rest) err w c =
      if i = id0 then compensateLoop id0 part rest err w c
      else
        if lookupD w i + part ≤ 0 then compensateLoop id0 part rest err w c
        else
          if err - part = 0 then (err - part, setW w i (lookupD w i + part), setW c i part)
          else compensateLoop id0 part rest (err - part)
            (setW w i (lookupD w i + part)) (setW c i part) := rfl

theorem compensateLoop_spec (id0 : String) (part : Int) (order : List String) :
    ∀ (err : Int) (w c : WMap) (e1 : Int) (w1 c1 : WMap),
    (∀ i ∈ order, i ∈ keysOf w) →
    compensateLoop id0 part order err w c = (e1, w1, c1) →
    keysOf w1 = keysOf w ∧ sumW w1 + e1 = sumW w + err ∧
    lookupOpt w1 id0 = lookupOpt w id0 ∧ lookupOpt c1 id0 = lookupOpt c id0 ∧
    (∀ j, lookupD w1 j = lookupD w j ∨ 1 ≤ lookupD w1 j) := by
  induction order with
  | nil =>
    intro err w c e1 w1 c1 _ h
    rw [compensateLoop_nil] at h
    obtain ⟨rfl, rfl, rfl⟩ : err = e1 ∧ w = w1 ∧ c = c1 := by
      injection h with h1 h2
      injection h2 with h2 h3
      exact ⟨h1, h2, h3⟩
    exact ⟨rfl, by ring, rfl, rfl, fun j => Or.inl rfl⟩
  | cons i rest ih =>
    intro err w c e1 w1 c1 hmem h
    have hmem' : ∀ j ∈ rest, j ∈ keysOf w := fun j hj => hmem j (List.mem_cons_of_mem _ hj)
    have hi_mem : i ∈ keysOf w := hmem i (List.mem_cons_self _ _)
    rw [compensateLoop_cons] at h
    by_cases hi : i = id0
    · rw [if_pos hi] at h
      exact ih err w c e1 w1 c1 hmem' h
    · rw [if_neg hi] at h
      by_cases hnw : lookupD w i + part ≤ 0
      · rw [if_pos hnw] at h
        exact ih err w c e1 w1 c1 hmem' h
      · rw [if_neg hnw] at h
        have hkeys : keysOf (setW w i (lookupD w i + part)) = keysOf w :=
          keysOf_setW_of_mem w i _ hi_mem
        have hsum : sumW (setW w i (lookupD w i + part)) = sumW w + part := by
          rw [sumW_setW w i _ hi_mem]; ring
        have hidw : lookupOpt (setW w i (lookupD w i + part)) id0 = lookupOpt w id0 :=
          lookupOpt_setW_ne w i id0 _ (fun hh => hi hh.symm)
        have hidc : lookupOpt (setW c i part) id0 = lookupOpt c id0 :=
          lookupOpt_setW_ne c i id0 _ (fun hh => hi hh.symm)
        have hpt : ∀ j, lookupD (setW w i (lookupD w i + part)) j = lookupD w j ∨
            1 ≤ lookupD (setW w i (lookupD w i + part)) j := by
          intro j
          by_cases hj : j = i
          · right
            rw [hj, lookupD_setW_self]
            omega
          · left
            exact lookupD_setW_ne w i j _ hj
        by_cases herr : err - part = 0
        · rw [if_pos herr] at h
          obtain ⟨rfl, rfl, rfl⟩ :
              err - part = e1 ∧ setW w i (lookupD w i + part) = w1 ∧ setW c i part = c1 := by
            injection h with h1 h2
            injection h2 with h2 h3
            exact ⟨h1, h2, h3⟩
          refine ⟨hkeys, by rw [hsum]; ring, hidw, hidc, hpt⟩
        · rw [if_neg herr] at h
          have hmem2 : ∀ j ∈ rest, j ∈ keysOf (setW w i (lookupD w i + part)) := by
            intro j hj; rw [hkeys]; exact hmem' j hj
          obtain ⟨k1, s1, l1, l2, p1⟩ := ih (err - part) _ _ e1 w1 c1 hmem2 h
          refine ⟨by rw [k1, hkeys], by rw [s1, hsum]; ring,
            by rw [l1, hidw], by rw [l2, hidc], ?_⟩
          intro j
          rcases p1 j with hp | hp
          · rw [hp]
            exact hpt j
          · exact Or.inr hp

theorem compensate_spec (calcErr : Int) (comps : WMap) (id0 : String) (newW : WMap)
    (pc : Nat) (pct : Int) (versions : String → String)
    (hpc : pc ≠ 0) (hid : id0 ∈ keysOf newW) (hlook : lookupD newW id0 = pct) :
    ∃ pct1 w1 c1 warned,
      compensate calcErr comps id0 newW pc pct versions = some (pct1, w1, c1, warned) ∧
      keysOf w1 = keysOf newW ∧
      sumW w1 = sumW newW + calcErr ∧
      lookupD w1 id0 = pct1 ∧
      (∀ j, j ≠ id0 → lookupD w1 j = lookupD newW j ∨ 1 ≤ lookupD w1 j) ∧
      (warned = false → pct1 = pct) ∧
      (warned = true → pct1 ≠ pct ∧ lookupD c1 id0 = pct1 - pct) := by
  rw [compensate, if_neg hpc]
  have hmem : ∀ i ∈ candidateOrder newW versions, i ∈ keysOf newW :=
    fun i hic => (mem_candidateOrder newW versions i).1 hic
  rcases hloop : compensateLoop id0 (compensatePart calcErr pc)
      (candidateOrder newW versions) calcErr newW comps with ⟨e1, w1, c1⟩
  obtain ⟨k1, s1, l1, _, p1⟩ := compensateLoop_spec id0 _ _ _ _ _ _ _ _ hmem hloop
  have hl1 : lookupD w1 id0 = pct := by
    rw [lookupD, l1, ← lookupD, hlook]
  dsimp only
  rw [hloop]
  by_cases he1 : e1 ≠ 0
  · rw [if_pos he1]
    have hid1 : id0 ∈ keysOf w1 := by rw [k1]; exact hid
    refine ⟨pct + e1, setW w1 id0 (pct + e1), setW c1 id0 e1, true,
      rfl, ?_, ?_, ?_, ?_, ?_, ?_⟩
    · rw [keysOf_setW_of_mem w1 id0 _ hid1, k1]
    · rw [sumW_setW w1 id0 _ hid1, hl1]
      omega
    · exact lookupD_setW_self w1 id0 _
    · intro j hj
      rw [lookupD_setW_ne w1 id0 j _ hj]
      exact p1 j
    · intro hcon; cases hcon
    · intro _
      refine ⟨by omega, ?_⟩
      rw [lookupD_setW_self c1 id0 e1]
      ring
  · rw [if_neg he1]
    have he0 : e1 = 0 := by omega
    refine ⟨pct, w1, c1, false, rfl, k1, by omega, hl1, fun j hj => p1 j,
      fun _ => rfl, fun hcon => by cases hcon⟩

theorem compensatePart_pos (e : Int) (pc : Nat) (he : 0 < e) :
    compensatePart e pc = max 1 (e.tdiv pc) := by
  rw [compensatePart, if_pos he]

theorem compensatePart_nonpos (e : Int) (pc : Nat) (he : ¬0 < e) :
    compensatePart e pc = min (-1) (e.tdiv pc) := by
  rw [compensatePart, if_neg he]

theorem natAbs_tdiv_le (e : Int) (pc : Nat) : (e.tdiv pc).natAbs ≤ e.natAbs := by
  rw [Int.natAbs_tdiv]
  exact Nat.div_le_self _ _

theorem tdiv_le_of_pos (e : Int) (pc : Nat) (he : 0 < e) : e.tdiv pc ≤ e := by
  have h1 : 0 ≤ e.tdiv (pc : Int) := Int.tdiv_nonneg (le_of_lt he) (by positivity)
  have h2 := natAbs_tdiv_le e pc
  omega

theorem tdiv_ge_of_neg (e : Int) (pc : Nat) (he : e < 0) : e ≤ e.tdiv pc := by
  have h1 : 0 ≤ (-e).tdiv (pc : Int) := Int.tdiv_nonneg (by omega) (by positivity)
  have h1' : e.tdiv (pc : Int) ≤ 0 := by
    rw [Int.neg_tdiv] at h1
    omega
  have h2 := natAbs_tdiv_le e pc
  omega

/-! ### Snapshot-reader lemmas -/

/-- The set-identifiers of the records that `get_weights` matches. -/
def matchingIds (dnsName : String) (rr : List RouteRecord) : List String :=
  (rr.filter fun r => decide (matchesRecord dnsName r)).map RouteRecord.setIdentifier

theorem matchingIds_nil (dnsName : String) : matchingIds dnsName [] = [] := rfl

theorem matchingIds_cons (dnsName : String) (r : RouteRecord) (rest : List RouteRecord) :
    matchingIds dnsName (r :: rest) =
      if matchesRecord dnsName r then r.setIdentifier :: matchingIds dnsName rest
      else matchingIds dnsName rest := by
  by_cases hm : matchesRecord dnsName r
  · rw [if_pos hm, matchingIds, List.filter_cons, if_pos (by simpa using hm)]
    rfl
  · rw [if_neg hm, matchingIds, List.filter_cons, if_neg (by simpa using hm)]
    rfl

theorem get_weights_loop_nil (dnsName id0 : String) (m : WMap) (pc : Nat) (ps : Int) :
    get_weights_loop dnsName id0 [] m pc ps = (m, pc, ps) := rfl

theorem get_weights_loop_cons (dnsName id0 : String) (r : RouteRecord)
    (rest : List RouteRecord) (m : WMap) (pc : Nat) (ps : Int) :
    get_weights_loop dnsName id0 (r :: rest) m pc ps =
      if matchesRecord dnsName r then
        if r.setIdentifier ≠ id0 ∧ 0 < (if r.weight ≠ 0 then r.weight else 0) then
          get_weights_loop dnsName id0 rest
            (setW m r.setIdentifier (if r.weight ≠ 0 then r.weight else 0)) (pc + 1)
            (ps + (if r.weight ≠ 0 then r.weight else 0))
        else
          get_weights_loop dnsName id0 rest
            (setW m r.setIdentifier (if r.weight ≠ 0 then r.weight else 0)) pc ps
      else get_weights_loop dnsName id0 rest m pc ps := rfl

theorem gw_loop_spec (dnsName id0 : String) :
    ∀ (rr : List RouteRecord) (m : WMap) (pc : Nat) (ps : Int),
    ((keysOf m).Nodup → (keysOf (get_weights_loop dnsName id0 rr m pc ps).1).Nodup) ∧
    (∀ k, k ∈ keysOf m → k ∈ keysOf (get_weights_loop dnsName id0 rr m pc ps).1) ∧
    (∀ r ∈ rr, matchesRecord dnsName r →
      r.setIdentifier ∈ keysOf (get_weights_loop dnsName id0 rr m pc ps).1) ∧
    ((∀ i, i ≠ id0 → 0 < lookupD m i → 0 < pc) →
      ∀ i, i ≠ id0 → 0 < lookupD (get_weights_loop dnsName id0 rr m pc ps).1 i →
        0 < (get_weights_loop dnsName id0 rr m pc ps).2.1) := by
  intro rr
  induction rr with
  | nil =>
    intro m pc ps
    rw [get_weights_loop_nil]
    exact ⟨fun h => h, fun k hk => hk, fun r hr => absurd hr (List.not_mem_nil r),
      fun h => h⟩
  | cons r rest ih =>
    intro m pc ps
    rw [get_weights_loop_cons]
    by_cases hm : matchesRecord dnsName r
    · rw [if_pos hm]
      by_cases hg : r.setIdentifier ≠ id0 ∧ 0 < (if r.weight ≠ 0 then r.weight else 0)
      · rw [if_pos hg]
        obtain ⟨ihn, ihm, ihmt, ihl⟩ := ih (setW m r.setIdentifier _) (pc + 1) (ps + _)
        refine ⟨fun hnd => ihn (nodup_keysOf_setW m _ _ hnd), ?_, ?_, ?_⟩
        · exact fun k hk => ihm k (mem_keysOf_setW m _ k _ hk)
        · intro r2 hr2 hmt2
          rcases List.mem_cons.1 hr2 with h1 | h1
          · subst h1
            exact ihm r2.setIdentifier (mem_keysOf_setW_self m _ _)
          · exact ihmt r2 h1 hmt2
        · intro _
          exact ihl fun i hi hpos => Nat.succ_pos pc
      · rw [if_neg hg]
        obtain ⟨ihn, ihm, ihmt, ihl⟩ := ih (setW m r.setIdentifier _) pc ps
        refine ⟨fun hnd => ihn (nodup_keysOf_setW m _ _ hnd), ?_, ?_, ?_⟩
        · exact fun k hk => ihm k (mem_keysOf_setW m _ k _ hk)
        · intro r2 hr2 hmt2
          rcases List.mem_cons.1 hr2 with h1 | h1
          · subst h1
            exact ihm r2.setIdentifier (mem_keysOf_setW_self m _ _)
          · exact ihmt r2 h1 hmt2
        · intro hbase
          refine ihl ?_
          intro i hi hpos
          by_cases hieq : i = r.setIdentifier
          · subst hieq
            rw [lookupD_setW_self] at hpos
            exact absurd ⟨hi, hpos⟩ hg
          · rw [lookupD_setW_ne m _ i _ hieq] at hpos
            exact hbase i hi hpos
    · rw [if_neg hm]
      obtain ⟨ihn, ihm, ihmt, ihl⟩ := ih m pc ps
      refine ⟨ihn, ihm, ?_, ihl⟩
      intro r2 hr2 hmt2
      rcases List.mem_cons.1 hr2 with h1 | h1
      · subst h1
        exact absurd hmt2 hm
      · exact ihmt r2 h1 hmt2

theorem gw_loop_live (dnsName id0 : String) :
    ∀ (rr : List RouteRecord) (m : WMap) (pc : Nat) (ps : Int),
    (matchingIds dnsName rr).Nodup →
    (∀ s ∈ matchingIds dnsName rr, s ∉ keysOf m) →
    (0 < pc → ∃ i, i ≠ id0 ∧ 0 < lookupD m i) →
    0 < (get_weights_loop dnsName id0 rr m pc ps).2.1 →
    ∃ i, i ≠ id0 ∧ 0 < lookupD (get_weights_loop dnsName id0 rr m pc ps).1 i := by
  intro rr
  induction rr with
  | nil =>
    intro m pc ps _ _ hbase hpos
    rw [get_weights_loop_nil] at hpos ⊢
    exact hbase hpos
  | cons r rest ih =>
    intro m pc ps hnd hdisj hbase
    rw [matchingIds_cons] at hnd hdisj
    rw [get_weights_loop_cons]
    by_cases hm : matchesRecord dnsName r
    · rw [if_pos hm] at hnd hdisj
      have hnd' : (matchingIds dnsName rest).Nodup := (List.nodup_cons.1 hnd).2
      have hhd : r.setIdentifier ∉ matchingIds dnsName rest := (List.nodup_cons.1 hnd).1
      have hsid : r.setIdentifier ∉ keysOf m :=
        hdisj r.setIdentifier (List.mem_cons_self _ _)
      have hdisj' : ∀ s ∈ matchingIds dnsName rest,
          s ∉ keysOf (setW m r.setIdentifier (if r.weight ≠ 0 then r.weight else 0)) := by
        intro s hs
        rw [keysOf_setW_of_not_mem m _ _ hsid]
        intro hmem
        rcases List.mem_append.1 hmem with h1 | h1
        · exact hdisj s (List.mem_cons_of_mem _ hs) h1
        · rcases List.mem_singleton.1 h1 with rfl
          exact hhd hs
      rw [if_pos hm]
      by_cases hg : r.setIdentifier ≠ id0 ∧ 0 < (if r.weight ≠ 0 then r.weight else 0)
      · rw [if_pos hg]
        refine ih _ (pc + 1) _ hnd' hdisj' ?_
        intro _
        exact ⟨r.setIdentifier, hg.1, by rw [lookupD_setW_self]; exact hg.2⟩
      · rw [if_neg hg]
        refine ih _ pc _ hnd' hdisj' ?_
        intro hpc
        obtain ⟨i, hi, hposi⟩ := hbase hpc
        have himem : i ∈ keysOf m := mem_keysOf_of_lookupD_ne m i (by omega)
        have hine : i ≠ r.setIdentifier := fun hh => hsid (hh ▸ himem)
        exact ⟨i, hi, by rw [lookupD_setW_ne m _ i _ hine]; exact hposi⟩
    · rw [if_neg hm] at hnd hdisj
      rw [if_neg hm]
      exact ih m pc ps hnd hdisj hbase

theorem mem_keysOf_ensureKey_self (m : WMap) (k : String) : k ∈ keysOf (ensureKey m k) := by
  rw [ensureKey]
  by_cases hk : k ∈ keysOf m
  · rw [if_pos hk]; exact hk
  · rw [if_neg hk]
    simp [keysOf]

theorem mem_keysOf_ensureKey (m : WMap) (k k' : String) (h : k' ∈ keysOf m) :
    k' ∈ keysOf (ensureKey m k) := by
  rw [ensureKey]
  by_cases hk : k ∈ keysOf m
  · rw [if_pos hk]; exact h
  · rw [if_neg hk]
    simp only [keysOf, List.map_append]
    exact List.mem_append_left _ h

theorem nodup_keysOf_ensureKey (m : WMap) (k : String) (h : (keysOf m).Nodup) :
    (keysOf (ensureKey m k)).Nodup := by
  rw [ensureKey]
  by_cases hk : k ∈ keysOf m
  · rw [if_pos hk]; exact h
  · rw [if_neg hk]
    simp only [keysOf, List.map_append]
    rw [List.nodup_append]
    exact ⟨h, by simp, by simpa [List.disjoint_singleton, keysOf] using hk⟩

theorem lookupOpt_ensureKey_of_mem (m : WMap) (k k' : String) (h : k' ∈ keysOf m) :
    lookupOpt (ensureKey m k) k' = lookupOpt m k' := by
  rw [ensureKey]
  by_cases hk : k ∈ keysOf m
  · rw [if_pos hk]
  · rw [if_neg hk]
    exact lookupOpt_append_of_mem m _ k' h

theorem lookupD_ensureKey_pos (m : WMap) (k k' : String) (h : 0 < lookupD m k') :
    0 < lookupD (ensureKey m k) k' := by
  have hmem : k' ∈ keysOf m := mem_keysOf_of_lookupD_ne m k' (by omega)
  rw [lookupD, lookupOpt_ensureKey_of_mem m k k' hmem]
  exact h

theorem lookupD_ensureKey_pos_reflect (m : WMap) (k k' : String)
    (h : 0 < lookupD (ensureKey m k) k') : 0 < lookupD m k' := by
  by_cases hmem : k' ∈ keysOf m
  · rw [lookupD, lookupOpt_ensureKey_of_mem m k k' hmem] at h
    exact h
  · exfalso
    rw [ensureKey] at h
    by_cases hk : k ∈ keysOf m
    · rw [if_pos hk] at h
      rw [lookupD_eq_zero_of_not_mem m k' hmem] at h
      omega
    · rw [if_neg hk, lookupD, lookupOpt_append_of_not_mem m _ k' hmem] at h
      by_cases hkk : k = k'
      · rw [lookupOpt, if_pos hkk] at h
        simp at h
      · rw [lookupOpt, if_neg hkk] at h
        simp [lookupOpt] at h

theorem foldl_ensureKey_mem (l : List String) :
    ∀ (m : WMap) (k : String), k ∈ keysOf m → k ∈ keysOf (l.foldl ensureKey m) := by
  induction l with
  | nil => intro m k h; exact h
  | cons a rest ih =>
    intro m k h
    exact ih (ensureKey m a) k (mem_keysOf_ensureKey m a k h)

theorem foldl_ensureKey_nodup (l : List String) :
    ∀ (m : WMap), (keysOf m).Nodup → (keysOf (l.foldl ensureKey m)).Nodup := by
  induction l with
  | nil => intro m h; exact h
  | cons a rest ih =>
    intro m h
    exact ih (ensureKey m a) (nodup_keysOf_ensureKey m a h)

theorem foldl_ensureKey_pos (l : List String) :
    ∀ (m : WMap) (k : String), 0 < lookupD m k → 0 < lookupD (l.foldl ensureKey m) k := by
  induction l with
  | nil => intro m k h; exact h
  | cons a rest ih =>
    intro m k h
    exact ih (ensureKey m a) k (lookupD_ensureKey_pos m a k h)

theorem foldl_ensureKey_pos_reflect (l : List String) :
    ∀ (m : WMap) (k : String), 0 < lookupD (l.foldl ensureKey m) k → 0 < lookupD m k := by
  induction l with
  | nil => intro m k h; exact h
  | cons a rest ih =>
    intro m k h
    exact lookupD_ensureKey_pos_reflect m a k (ih (ensureKey m a) k h)

theorem get_weights_eq (dnsName id0 : String) (rr : List RouteRecord)
    (alls : List String) :
    get_weights dnsName id0 rr alls =
      (alls.foldl ensureKey
        (ensureKey (get_weights_loop dnsName id0 rr [] 0 0).1 id0),
       (get_weights_loop dnsName id0 rr [] 0 0).2.1,
       (get_weights_loop dnsName id0 rr [] 0 0).2.2) := by
  rw [get_weights]

theorem get_weights_keys_nodup (dnsName id0 : String) (rr : List RouteRecord)
    (alls : List String) : (keysOf (get_weights dnsName id0 rr alls).1).Nodup := by
  rw [get_weights_eq]
  exact foldl_ensureKey_nodup alls _
    (nodup_keysOf_ensureKey _ id0 ((gw_loop_spec dnsName id0 rr [] 0 0).1 (by simp [keysOf])))

theorem get_weights_id_mem (dnsName id0 : String) (rr : List RouteRecord)
    (alls : List String) : id0 ∈ keysOf (get_weights dnsName id0 rr alls).1 := by
  rw [get_weights_eq]
  exact foldl_ensureKey_mem alls _ id0 (mem_keysOf_ensureKey_self _ id0)

theorem get_weights_matching_mem (dnsName id0 : String) (rr : List RouteRecord)
    (alls : List String) (r : RouteRecord) (hr : r ∈ rr) (hm : matchesRecord dnsName r) :
    r.setIdentifier ∈ keysOf (get_weights dnsName id0 rr alls).1 := by
  rw [get_weights_eq]
  exact foldl_ensureKey_mem alls _ _
    (mem_keysOf_ensureKey _ id0 _ ((gw_loop_spec dnsName id0 rr [] 0 0).2.2.1 r hr hm))

theorem get_weights_live_imp_pc (dnsName id0 : String) (rr : List RouteRecord)
    (alls : List String) (i : String) (hi : i ≠ id0)
    (hpos : 0 < lookupD (get_weights dnsName id0 rr alls).1 i) :
    0 < (get_weights dnsName id0 rr alls).2.1 := by
  rw [get_weights_eq] at hpos ⊢
  have h1 : 0 < lookupD (get_weights_loop dnsName id0 rr [] 0 0).1 i := by
    have h2 := foldl_ensureKey_pos_reflect alls _ i hpos
    exact lookupD_ensureKey_pos_reflect _ id0 i h2
  exact (gw_loop_spec dnsName id0 rr [] 0 0).2.2.2
    (fun j hj hpj => by simp [lookupD, lookupOpt] at hpj) i hi h1

theorem get_weights_pc_live (dnsName id0 : String) (rr : List RouteRecord)
    (alls : List String) (hnd : (matchingIds dnsName rr).Nodup)
    (hpc : 0 < (get_weights dnsName id0 rr alls).2.1) :
    ∃ i, i ≠ id0 ∧ 0 < lookupD (get_weights dnsName id0 rr alls).1 i := by
  rw [get_weights_eq] at hpc ⊢
  obtain ⟨i, hi, hposi⟩ := gw_loop_live dnsName id0 rr [] 0 0 hnd
    (by intro s _; simp [keysOf]) (by intro h; omega) hpc
  exact ⟨i, hi, foldl_ensureKey_pos alls _ i (lookupD_ensureKey_pos _ id0 i hposi)⟩

/-! ### Allocator and core-path lemmas -/

theorem lookupOpt_eq_some_lookupD (m : WMap) (k : String) (h : k ∈ keysOf m) :
    lookupOpt m k = some (lookupD m k) := by
  cases ho : lookupOpt m k with
  | none =>
    have := (lookupOpt_isSome_iff m k).2 h
    rw [ho] at this
    simp at this
  | some v => simp [lookupD, ho]

theorem calc_fst (delta : Int) (id0 : String) (known : WMap) (pct : Int) :
    (calculate_new_weights delta id0 known pct).1 =
      known.map fun q => (q.1, allocWeight delta id0 pct q.1 q.2) := rfl

theorem keysOf_calc (delta : Int) (id0 : String) (known : WMap) (pct : Int) :
    keysOf (calculate_new_weights delta id0 known pct).1 = keysOf known := by
  rw [calc_fst]
  exact keysOf_mapVal known _

theorem lookupOpt_calc (delta : Int) (id0 : String) (known : WMap) (pct : Int)
    (j : String) :
    lookupOpt (calculate_new_weights delta id0 known pct).1 j =
      (lookupOpt known j).map (allocWeight delta id0 pct j) := by
  rw [calc_fst]
  exact lookupOpt_mapVal known _ j

theorem lookupD_calc_id (delta : Int) (id0 : String) (known : WMap) (pct : Int)
    (hid : id0 ∈ keysOf known) :
    lookupD (calculate_new_weights delta id0 known pct).1 id0 = pct := by
  rw [lookupD, lookupOpt_calc, lookupOpt_eq_some_lookupD known id0 hid]
  simp [allocWeight]

theorem allocWeight_nonneg (delta : Int) (id0 : String) (pct : Int) (i : String)
    (w : Int) (hp : 0 ≤ pct) : 0 ≤ allocWeight delta id0 pct i w := by
  rw [allocWeight]
  by_cases h1 : i = id0
  · rw [if_pos h1]; exact hp
  · rw [if_neg h1]
    by_cases h2 : pct = FULL_PERCENTAGE
    · rw [if_pos h2]
    · rw [if_neg h2]
      by_cases h3 : 0 < w
      · rw [if_pos h3]; omega
      · rw [if_neg h3]

theorem calc_nonneg (delta : Int) (id0 : String) (known : WMap) (pct : Int)
    (hp : 0 ≤ pct) : ∀ q ∈ (calculate_new_weights delta id0 known pct).1, 0 ≤ q.2 := by
  rw [calc_fst]
  intro q hq
  rcases List.mem_map.1 hq with ⟨x, _, rfl⟩
  exact allocWeight_nonneg delta id0 pct x.1 x.2 hp

theorem sumW_calc_full (delta : Int) (id0 : String) (known : WMap)
    (hnd : (keysOf known).Nodup) (hid : id0 ∈ keysOf known) :
    sumW (calculate_new_weights delta id0 known FULL_PERCENTAGE).1 = FULL_PERCENTAGE := by
  rw [calc_fst]
  refine sumW_mapVal_single known _ id0 hnd hid FULL_PERCENTAGE ?_ ?_
  · intro q _ hq1
    rw [allocWeight, if_neg hq1, if_pos rfl]
  · intro w
    rw [allocWeight, if_pos rfl]

theorem lookupD_calc_live (delta : Int) (id0 : String) (known : WMap) (pct : Int)
    (i : String) (hi : i ≠ id0) (hpos : 0 < lookupD known i)
    (hpct : pct ≠ FULL_PERCENTAGE) :
    1 ≤ lookupD (calculate_new_weights delta id0 known pct).1 i := by
  have hmem : i ∈ keysOf known := mem_keysOf_of_lookupD_ne known i (by omega)
  have hval : lookupD (calculate_new_weights delta id0 known pct).1 i =
      allocWeight delta id0 pct i (lookupD known i) := by
    rw [lookupD, lookupOpt_calc, lookupOpt_eq_some_lookupD known i hmem]
    rfl
  rw [hval, allocWeight, if_neg hi, if_neg hpct, if_pos hpos]
  exact le_max_left 1 _


theorem compDeltaPct_of_pc_ne (id0 : String) (pc : Nat) (ps p : Int) (hpc : pc ≠ 0) :
    compDeltaPct id0 pc ps p =
      ([], (FULL_PERCENTAGE - p - ps).tdiv pc, p) := by
  rw [compDeltaPct, if_pos hpc]

theorem compDeltaPct_promote (id0 : String) (ps p : Int) (hp : 0 < p) :
    compDeltaPct id0 0 ps p =
      ([(id0, FULL_PERCENTAGE - p)], 0, FULL_PERCENTAGE) := by
  rw [compDeltaPct, if_neg (by omega), if_pos hp]

/-- The sole-survivor-promote path of `change_version_traffic`
(`partial_count == 0`, requested percentage positive): the target is promoted
to `FULL_PERCENTAGE`, the gap is recorded as a compensation on the target,
the allocator delta is 0, no warning is emitted. -/
theorem core_promote_eq (id0 : String) (versions : String → String) (known : WMap)
    (ps : Int) (p : Int) (hp : 0 < p)
    (hnd : (keysOf known).Nodup) (hid : id0 ∈ keysOf known) :
    change_version_traffic_core id0 versions known 0 ps p =
      some ⟨(calculate_new_weights 0 id0 known FULL_PERCENTAGE).1,
            [(id0, FULL_PERCENTAGE - p)],
            (calculate_new_weights 0 id0 known FULL_PERCENTAGE).2,
            0, FULL_PERCENTAGE, false, false⟩ := by
  rw [change_version_traffic_core, if_neg (by omega), compDeltaPct_promote id0 ps p hp]
  dsimp only
  rw [sumW_calc_full 0 id0 known hnd hid]
  rw [if_neg (by omega), if_pos rfl]

/-- The general path of `change_version_traffic` with `partial_count > 0`:
the run succeeds, conserves the total, leaves the target's weight equal to the
returned percentage, adjusts the percentage away from the request only in the
warned boundary case (recording the adjustment on the target), and never
pushes a non-target weight away from the larger of 1 and its allocator
value. -/
theorem core_general_spec (id0 : String) (versions : String → String) (known : WMap)
    (pc : Nat) (ps : Int) (p : Int)
    (hpc : pc ≠ 0)
    (hnd : (keysOf known).Nodup) (hid : id0 ∈ keysOf known)
    (hp0 : 0 ≤ p) (hpF : p ≤ FULL_PERCENTAGE)
    (hlive0 : p = 0 → ∃ i, i ≠ id0 ∧ 0 < lookupD known i) :
    ∃ res, change_version_traffic_core id0 versions known pc ps p = some res ∧
      res.removed = false ∧
      sumW res.newWeights = FULL_PERCENTAGE ∧
      lookupD res.newWeights id0 = res.percentage ∧
      (res.warned = false → res.percentage = p) ∧
      (res.warned = true → res.percentage ≠ p ∧
        lookupD res.comps id0 = res.percentage - p) ∧
      (∀ j, j ≠ id0 →
        lookupD res.newWeights j =
          lookupD (calculate_new_weights ((FULL_PERCENTAGE - p - ps).tdiv pc)
            id0 known p).1 j ∨
        1 ≤ lookupD res.newWeights j) := by
  rw [change_version_traffic_core, if_neg (fun hcon => hpc hcon.1),
    compDeltaPct_of_pc_ne id0 pc ps p hpc]
  dsimp only
  set dlt : Int := (FULL_PERCENTAGE - p - ps).tdiv pc with hdlt
  set newW : WMap := (calculate_new_weights dlt id0 known p).1 with hnewW
  have hkeysW : keysOf newW = keysOf known := keysOf_calc dlt id0 known p
  have hidW : id0 ∈ keysOf newW := by rw [hkeysW]; exact hid
  have hlookW : lookupD newW id0 = p := lookupD_calc_id dlt id0 known p hid
  by_cases hE : FULL_PERCENTAGE - sumW newW = 0
  · rw [if_neg (fun hc => hc.1 hE)]
    rw [if_pos (by omega)]
    refine ⟨⟨newW, [], (calculate_new_weights dlt id0 known p).2, dlt, p, false, false⟩,
      rfl, rfl, by show sumW newW = FULL_PERCENTAGE; omega, hlookW, fun _ => rfl, ?_, ?_⟩
    · intro hcon
      simp at hcon
    · intro j _
      exact Or.inl rfl
  · have hpos : 0 < sumW newW := by
      by_cases hp' : p = 0
      · obtain ⟨i, hi, hposi⟩ := hlive0 hp'
        have h1 : 1 ≤ lookupD newW i := by
          rw [hnewW]
          refine lookupD_calc_live dlt id0 known p i hi hposi ?_
          rw [hp', FULL_PERCENTAGE, PERCENT_RESOLUTION]
          omega
        have hmem : i ∈ keysOf newW := mem_keysOf_of_lookupD_ne newW i (by omega)
        have := lookupD_le_sumW newW i (calc_nonneg dlt id0 known p hp0) hmem
        omega
      · by_cases hpF' : p = FULL_PERCENTAGE
        · exfalso
          apply hE
          rw [hnewW, hpF', sumW_calc_full dlt id0 known hnd hid]
          omega
        · have := lookupD_le_sumW newW id0 (calc_nonneg dlt id0 known p hp0) hidW
          omega
    rw [if_pos ⟨hE, by omega⟩]
    obtain ⟨pct1, w1, c1, warned, hcomp, _, hsum1, hlook1, hfloor1, hwf, hwt⟩ :=
      compensate_spec (FULL_PERCENTAGE - sumW newW) [] id0 newW pc p versions
        hpc hidW hlookW
    rw [hcomp]
    dsimp only
    rw [if_pos (by omega)]
    exact ⟨⟨w1, c1, (calculate_new_weights dlt id0 known p).2, dlt, pct1, warned, false⟩,
      rfl, rfl, by show sumW w1 = FULL_PERCENTAGE; omega, hlook1, hwf, hwt,
      fun j hj => hfloor1 j hj⟩

/-- The last-version-disable path of `change_version_traffic`
(`partial_count == 0` and requested percentage 0): all weights forced to 0,
nothing else computed, signalled as the removed outcome. -/
theorem core_disable_eq (id0 : String) (versions : String → String) (known : WMap)
    (ps : Int) :
    change_version_traffic_core id0 versions known 0 ps 0 =
      some ⟨known.map fun q => (q.1, 0), [], [], 0, 0, false, true⟩ := by
  rw [change_version_traffic_core, if_pos ⟨rfl, rfl⟩]

/-! ### Change-set builder lemmas -/

theorem build_changes_nil (dnsName id0 : String) (newW : WMap) :
    build_changes dnsName id0 newW [] = some ([], [], false) := rfl

theorem build_changes_cons (dnsName id0 : String) (newW : WMap) (r : RouteRecord)
    (rest : List RouteRecord) :
    build_changes dnsName id0 newW (r :: rest) =
      if matchesRecord dnsName r then
        match lookupOpt newW r.setIdentifier with
        | none => none
        | some w =>
          match build_changes dnsName id0 newW rest with
          | none => none
          | some (cs, rs, du) =>
            if w ≠ 0 then
              some ((if r.weight ≠ w then
                      [Change.mk ChangeAction.upsert { r with weight := w }] else []) ++ cs,
                    { r with weight := w } :: rs,
                    (decide (r.setIdentifier = id0) || du))
            else
              some (Change.mk ChangeAction.delete r :: cs, r :: rs, du)
      else
        match build_changes dnsName id0 newW rest with
        | none => none
        | some (cs, rs, du) => some (cs, r :: rs, du) := rfl

theorem some_triple_inj {cs cs2 : List Change} {rs rs2 : List RouteRecord} {du du2 : Bool}
    (h : (some (cs2, rs2, du2) : Option (List Change × List RouteRecord × Bool)) =
      some (cs, rs, du)) :
    cs2 = cs ∧ rs2 = rs ∧ du2 = du := by
  injection h with h1
  injection h1 with hc h2
  injection h2 with hr hd
  exact ⟨hc, hr, hd⟩

theorem build_changes_some (dnsName id0 : String) (newW : WMap) :
    ∀ rr : List RouteRecord,
    (∀ r ∈ rr, matchesRecord dnsName r → r.setIdentifier ∈ keysOf newW) →
    ∃ out, build_changes dnsName id0 newW rr = some out := by
  intro rr
  induction rr with
  | nil => intro _; exact ⟨([], [], false), rfl⟩
  | cons r rest ih =>
    intro hmem
    obtain ⟨⟨cs, rs, du⟩, hrec⟩ := ih fun r2 h2 hm2 => hmem r2 (List.mem_cons_of_mem _ h2) hm2
    rw [build_changes_cons]
    by_cases hm : matchesRecord dnsName r
    · rw [if_pos hm]
      rw [lookupOpt_eq_some_lookupD newW r.setIdentifier
        (hmem r (List.mem_cons_self _ _) hm)]
      rw [hrec]
      dsimp only
      by_cases hw : lookupD newW r.setIdentifier ≠ 0
      · exact ⟨_, by rw [if_pos hw]⟩
      · exact ⟨_, by rw [if_neg hw]⟩
    · rw [if_neg hm, hrec]
      exact ⟨_, rfl⟩

theorem build_changes_delete_mem (dnsName id0 : String) (newW : WMap) :
    ∀ (rr : List RouteRecord) (cs : List Change) (rs : List RouteRecord) (du : Bool),
    build_changes dnsName id0 newW rr = some (cs, rs, du) →
    ∀ r ∈ rr, matchesRecord dnsName r → lookupOpt newW r.setIdentifier = some 0 →
    Change.mk ChangeAction.delete r ∈ cs := by
  intro rr
  induction rr with
  | nil => intro cs rs du _ r hr; exact absurd hr (List.not_mem_nil r)
  | cons r0 rest ih =>
    intro cs rs du hb r hr hm hlk
    rw [build_changes_cons] at hb
    rcases List.mem_cons.1 hr with rfl | hr2
    · rw [if_pos hm, hlk] at hb
      cases hrec : build_changes dnsName id0 newW rest with
      | none =>
        rw [hrec] at hb
        dsimp only at hb
        cases hb
      | some out =>
        rcases out with ⟨cs2, rs2, du2⟩
        rw [hrec] at hb
        dsimp only at hb
        rw [if_neg (by omega : ¬((0:Int) ≠ 0))] at hb
        obtain ⟨h1, _, _⟩ := some_triple_inj hb
        rw [← h1]
        exact List.mem_cons_self _ _
    · by_cases hm0 : matchesRecord dnsName r0
      · rw [if_pos hm0] at hb
        cases hlk0 : lookupOpt newW r0.setIdentifier with
        | none =>
          rw [hlk0] at hb
          dsimp only at hb
          cases hb
        | some w0 =>
          rw [hlk0] at hb
          cases hrec : build_changes dnsName id0 newW rest with
          | none =>
            rw [hrec] at hb
            dsimp only at hb
            cases hb
          | some out =>
            rcases out with ⟨cs2, rs2, du2⟩
            rw [hrec] at hb
            dsimp only at hb
            have hmem2 := ih cs2 rs2 du2 hrec r hr2 hm hlk
            by_cases hw0 : w0 ≠ 0
            · rw [if_pos hw0] at hb
              obtain ⟨h1, _, _⟩ := some_triple_inj hb
              rw [← h1]
              exact List.mem_append_right _ hmem2
            · rw [if_neg hw0] at hb
              obtain ⟨h1, _, _⟩ := some_triple_inj hb
              rw [← h1]
              exact List.mem_cons_of_mem _ hmem2
      · rw [if_neg hm0] at hb
        cases hrec : build_changes dnsName id0 newW rest with
        | none =>
          rw [hrec] at hb
          dsimp only at hb
          cases hb
        | some out =>
          rcases out with ⟨cs2, rs2, du2⟩
          rw [hrec] at hb
          dsimp only at hb
          obtain ⟨h1, _, _⟩ := some_triple_inj hb
          rw [← h1]
          exact ih cs2 rs2 du2 hrec r hr2 hm hlk

theorem build_changes_all_delete (dnsName id0 : String) (newW : WMap) :
    ∀ (rr : List RouteRecord) (cs : List Change) (rs : List RouteRecord) (du : Bool),
    build_changes dnsName id0 newW rr = some (cs, rs, du) →
    (∀ r ∈ rr, matchesRecord dnsName r → lookupOpt newW r.setIdentifier = some 0) →
    ∀ ch ∈ cs, ch.action = ChangeAction.delete := by
  intro rr
  induction rr with
  | nil =>
    intro cs rs du hb _ ch hch
    obtain ⟨h1, _, _⟩ := some_triple_inj (build_changes_nil dnsName id0 newW ▸ hb)
    rw [← h1] at hch
    exact absurd hch (List.not_mem_nil ch)
  | cons r0 rest ih =>
    intro cs rs du hb hz ch hch
    rw [build_changes_cons] at hb
    by_cases hm0 : matchesRecord dnsName r0
    · rw [if_pos hm0, hz r0 (List.mem_cons_self _ _) hm0] at hb
      cases hrec : build_changes dnsName id0 newW rest with
      | none =>
        rw [hrec] at hb
        dsimp only at hb
        cases hb
      | some out =>
        rcases out with ⟨cs2, rs2, du2⟩
        rw [hrec] at hb
        dsimp only at hb
        rw [if_neg (by omega : ¬((0:Int) ≠ 0))] at hb
        obtain ⟨h1, _, _⟩ := some_triple_inj hb
        rw [← h1] at hch
        rcases List.mem_cons.1 hch with rfl | hch2
        · rfl
        · exact ih cs2 rs2 du2 hrec
            (fun r2 h2 hm2 => hz r2 (List.mem_cons_of_mem _ h2) hm2) ch hch2
    · rw [if_neg hm0] at hb
      cases hrec : build_changes dnsName id0 newW rest with
      | none =>
        rw [hrec] at hb
        dsimp only at hb
        cases hb
      | some out =>
        rcases out with ⟨cs2, rs2, du2⟩
        rw [hrec] at hb
        dsimp only at hb
        obtain ⟨h1, _, _⟩ := some_triple_inj hb
        rw [← h1] at hch
        exact ih cs2 rs2 du2 hrec
          (fun r2 h2 hm2 => hz r2 (List.mem_cons_of_mem _ h2) hm2) ch hch

theorem build_changes_upsert_target (dnsName id0 : String) (newW : WMap) :
    ∀ (rr : List RouteRecord) (cs : List Change) (rs : List RouteRecord) (du : Bool),
    build_changes dnsName id0 newW rr = some (cs, rs, du) →
    (∀ r ∈ rr, matchesRecord dnsName r → r.setIdentifier ≠ id0 →
      lookupOpt newW r.setIdentifier = some 0) →
    ∀ ch ∈ cs, ch.action = ChangeAction.upsert → ch.record.setIdentifier = id0 := by
  intro rr
  induction rr with
  | nil =>
    intro cs rs du hb _ ch hch
    obtain ⟨h1, _, _⟩ := some_triple_inj (build_changes_nil dnsName id0 newW ▸ hb)
    rw [← h1] at hch
    exact absurd hch (List.not_mem_nil ch)
  | cons r0 rest ih =>
    intro cs rs du hb hz ch hch hact
    rw [build_changes_cons] at hb
    have hzrest : ∀ r ∈ rest, matchesRecord dnsName r → r.setIdentifier ≠ id0 →
        lookupOpt newW r.setIdentifier = some 0 :=
      fun r2 h2 hm2 hne2 => hz r2 (List.mem_cons_of_mem _ h2) hm2 hne2
    by_cases hm0 : matchesRecord dnsName r0
    · rw [if_pos hm0] at hb
      cases hlk0 : lookupOpt newW r0.setIdentifier with
      | none =>
        rw [hlk0] at hb
        dsimp only at hb
        cases hb
      | some w0 =>
        rw [hlk0] at hb
        cases hrec : build_changes dnsName id0 newW rest with
        | none =>
          rw [hrec] at hb
          dsimp only at hb
          cases hb
        | some out =>
          rcases out with ⟨cs2, rs2, du2⟩
          rw [hrec] at hb
          dsimp only at hb
          by_cases hsid : r0.setIdentifier = id0
          · by_cases hw0 : w0 ≠ 0
            · rw [if_pos hw0] at hb
              obtain ⟨h1, _, _⟩ := some_triple_inj hb
              rw [← h1] at hch
              rcases List.mem_append.1 hch with hch1 | hch2
              · by_cases hwch : r0.weight ≠ w0
                · rw [if_pos hwch] at hch1
                  rcases List.mem_singleton.1 hch1 with rfl
                  exact hsid
                · rw [if_neg hwch] at hch1
                  exact absurd hch1 (List.not_mem_nil ch)
              · exact ih cs2 rs2 du2 hrec hzrest ch hch2 hact
            · rw [if_neg hw0] at hb
              obtain ⟨h1, _, _⟩ := some_triple_inj hb
              rw [← h1] at hch
              rcases List.mem_cons.1 hch with rfl | hch2
              · cases hact
              · exact ih cs2 rs2 du2 hrec hzrest ch hch2 hact
          · have hw0z : w0 = 0 := by
              have := hz r0 (List.mem_cons_self _ _) hm0 hsid
              rw [hlk0] at this
              exact Option.some.inj this
            rw [if_neg (by omega)] at hb
            obtain ⟨h1, _, _⟩ := some_triple_inj hb
            rw [← h1] at hch
            rcases List.mem_cons.1 hch with rfl | hch2
            · cases hact
            · exact ih cs2 rs2 du2 hrec hzrest ch hch2 hact
    · rw [if_neg hm0] at hb
      cases hrec : build_changes dnsName id0 newW rest with
      | none =>
        rw [hrec] at hb
        dsimp only at hb
        cases hb
      | some out =>
        rcases out with ⟨cs2, rs2, du2⟩
        rw [hrec] at hb
        dsimp only at hb
        obtain ⟨h1, _, _⟩ := some_triple_inj hb
        rw [← h1] at hch
        exact ih cs2 rs2 du2 hrec hzrest ch hch hact

theorem build_changes_du_target (dnsName id0 : String) (newW : WMap) :
    ∀ (rr : List RouteRecord) (cs : List Change) (rs : List RouteRecord) (du : Bool),
    build_changes dnsName id0 newW rr = some (cs, rs, du) →
    (∃ r ∈ rr, matchesRecord dnsName r ∧ r.setIdentifier = id0 ∧
      ∃ w, lookupOpt newW r.setIdentifier = some w ∧ w ≠ 0) →
    du = true := by
  intro rr
  induction rr with
  | nil =>
    intro cs rs du _ hex
    obtain ⟨r, hr, _⟩ := hex
    exact absurd hr (List.not_mem_nil r)
  | cons r0 rest ih =>
    intro cs rs du hb hex
    rw [build_changes_cons] at hb
    obtain ⟨r, hr, hmr, hsidr, w, hlkr, hwr⟩ := hex
    rcases List.mem_cons.1 hr with rfl | hr2
    · rw [if_pos hmr, hlkr] at hb
      cases hrec : build_changes dnsName id0 newW rest with
      | none =>
        rw [hrec] at hb
        dsimp only at hb
        cases hb
      | some out =>
        rcases out with ⟨cs2, rs2, du2⟩
        rw [hrec] at hb
        dsimp only at hb
        rw [if_pos hwr] at hb
        obtain ⟨_, _, h3⟩ := some_triple_inj hb
        rw [← h3]
        simp [hsidr]
    · have hexrest : ∃ r2 ∈ rest, matchesRecord dnsName r2 ∧ r2.setIdentifier = id0 ∧
          ∃ w2, lookupOpt newW r2.setIdentifier = some w2 ∧ w2 ≠ 0 :=
        ⟨r, hr2, hmr, hsidr, w, hlkr, hwr⟩
      by_cases hm0 : matchesRecord dnsName r0
      · rw [if_pos hm0] at hb
        cases hlk0 : lookupOpt newW r0.setIdentifier with
        | none =>
          rw [hlk0] at hb
          dsimp only at hb
          cases hb
        | some w0 =>
          rw [hlk0] at hb
          cases hrec : build_changes dnsName id0 newW rest with
          | none =>
            rw [hrec] at hb
            dsimp only at hb
            cases hb
          | some out =>
            rcases out with ⟨cs2, rs2, du2⟩
            rw [hrec] at hb
            dsimp only at hb
            have hdu2 : du2 = true := ih cs2 rs2 du2 hrec hexrest
            by_cases hw0 : w0 ≠ 0
            · rw [if_pos hw0] at hb
              obtain ⟨_, _, h3⟩ := some_triple_inj hb
              rw [← h3, hdu2]
              simp
            · rw [if_neg hw0] at hb
              obtain ⟨_, _, h3⟩ := some_triple_inj hb
              rw [← h3, hdu2]
      · rw [if_neg hm0] at hb
        cases hrec : build_changes dnsName id0 newW rest with
        | none =>
          rw [hrec] at hb
          dsimp only at hb
          cases hb
        | some out =>
          rcases out with ⟨cs2, rs2, du2⟩
          rw [hrec] at hb
          dsimp only at hb
          obtain ⟨_, _, h3⟩ := some_triple_inj hb
          rw [← h3]
          exact ih cs2 rs2 du2 hrec hexrest

theorem build_changes_idempotent (dnsName id0 : String) (newW : WMap) :
    ∀ (rr : List RouteRecord) (cs : List Change) (rs : List RouteRecord) (du : Bool),
    build_changes dnsName id0 newW rr = some (cs, rs, du) →
    (∀ r ∈ rr, matchesRecord dnsName r →
      ∃ w, lookupOpt newW r.setIdentifier = some w ∧ w ≠ 0) →
    build_changes dnsName id0 newW rs = some ([], rs, du) := by
  intro rr
  induction rr with
  | nil =>
    intro cs rs du hb _
    obtain ⟨_, h2, h3⟩ := some_triple_inj (build_changes_nil dnsName id0 newW ▸ hb)
    rw [← h2, ← h3]
    exact build_changes_nil dnsName id0 newW
  | cons r0 rest ih =>
    intro cs rs du hb hnz
    have hnzrest : ∀ r ∈ rest, matchesRecord dnsName r →
        ∃ w, lookupOpt newW r.setIdentifier = some w ∧ w ≠ 0 :=
      fun r2 h2 hm2 => hnz r2 (List.mem_cons_of_mem _ h2) hm2
    rw [build_changes_cons] at hb
    by_cases hm0 : matchesRecord dnsName r0
    · obtain ⟨w0, hlk0, hw0⟩ := hnz r0 (List.mem_cons_self _ _) hm0
      rw [if_pos hm0, hlk0] at hb
      cases hrec : build_changes dnsName id0 newW rest with
      | none =>
        rw [hrec] at hb
        dsimp only at hb
        cases hb
      | some out =>
        rcases out with ⟨cs2, rs2, du2⟩
        rw [hrec] at hb
        dsimp only at hb
        rw [if_pos hw0] at hb
        obtain ⟨h1, h2, h3⟩ := some_triple_inj hb
        have hih := ih cs2 rs2 du2 hrec hnzrest
        rw [← h2, ← h3]
        rw [build_changes_cons]
        have hm1 : matchesRecord dnsName { r0 with weight := w0 } := hm0
        have hlk1 : lookupOpt newW ({ r0 with weight := w0 }).setIdentifier = some w0 := hlk0
        rw [if_pos hm1, hlk1, hih]
        dsimp only
        rw [if_pos hw0, if_neg (fun hcon : w0 ≠ w0 => hcon rfl)]
        rw [List.nil_append]
    · rw [if_neg hm0] at hb
      cases hrec : build_changes dnsName id0 newW rest with
      | none =>
        rw [hrec] at hb
        dsimp only at hb
        cases hb
      | some out =>
        rcases out with ⟨cs2, rs2, du2⟩
        rw [hrec] at hb
        dsimp only at hb
        obtain ⟨h1, h2, h3⟩ := some_triple_inj hb
        rw [← h2, ← h3]
        rw [build_changes_cons, if_neg hm0, ih cs2 rs2 du2 hrec hnzrest]

/-! ### Remaining helper lemmas -/

theorem lookupD_singleton_self (k : String) (v : Int) : lookupD [(k, v)] k = v := by
  simp [lookupD, lookupOpt]

theorem lookupD_mapVal_zero (m : WMap) (i : String) :
    lookupD (m.map fun q => (q.1, (0:Int))) i = 0 := by
  have h := lookupOpt_mapVal m (fun _ _ => (0:Int)) i
  rw [lookupD, h]
  cases lookupOpt m i <;> rfl

theorem lookupD_calc_full_nontarget (dlt : Int) (id0 : String) (known : WMap)
    (i : String) (hi : i ≠ id0) :
    lookupD (calculate_new_weights dlt id0 known FULL_PERCENTAGE).1 i = 0 := by
  rw [lookupD, lookupOpt_calc]
  cases ho : lookupOpt known i with
  | none => rfl
  | some w =>
    show allocWeight dlt id0 FULL_PERCENTAGE i w = 0
    rw [allocWeight, if_neg hi, if_pos rfl]

theorem core_full_eq (id0 : String) (versions : String → String) (known : WMap)
    (pc : Nat) (ps : Int) (hpc : pc ≠ 0)
    (hnd : (keysOf known).Nodup) (hid : id0 ∈ keysOf known) :
    change_version_traffic_core id0 versions known pc ps FULL_PERCENTAGE =
      some ⟨(calculate_new_weights ((FULL_PERCENTAGE - FULL_PERCENTAGE - ps).tdiv pc)
              id0 known FULL_PERCENTAGE).1,
            [],
            (calculate_new_weights ((FULL_PERCENTAGE - FULL_PERCENTAGE - ps).tdiv pc)
              id0 known FULL_PERCENTAGE).2,
            (FULL_PERCENTAGE - FULL_PERCENTAGE - ps).tdiv pc,
            FULL_PERCENTAGE, false, false⟩ := by
  rw [change_version_traffic_core, if_neg (fun hcon => hpc hcon.1),
    compDeltaPct_of_pc_ne id0 pc ps FULL_PERCENTAGE hpc]
  dsimp only
  rw [sumW_calc_full _ id0 known hnd hid]
  rw [if_neg (by omega), if_pos rfl]

/-! ### Claim theorems -/

/-- C4 counterexample: the spec says the per-candidate adjustment is
`error / partialCount` rounded away from zero (ceiling of the absolute
quotient); the code truncates toward zero instead.  At `error = 3`,
`partialCount = 2` the code computes 1 while the claimed rounding gives 2. -/
theorem compensation_step_not_round_away :
    compensatePart 3 2 = 1 ∧ specRoundAwayPart 3 2 = 2 ∧
      compensatePart 3 2 ≠ specRoundAwayPart 3 2 := by
  decide

/-- C4 (amended): the per-candidate adjustment `part` is
`error / partialCount` truncated toward zero, clamped to magnitude at least 1,
with the sign of the error; each applied step still shrinks the absolute error
by a non-zero amount. -/
theorem compensation_step_truncation (e : Int) (pc : Nat) (he : e ≠ 0) (hpc : 0 < pc) :
    (compensatePart e pc).natAbs = max 1 ((e.tdiv pc).natAbs) ∧
    (0 < e → 0 < compensatePart e pc) ∧
    (e < 0 → compensatePart e pc < 0) ∧
    (e - compensatePart e pc).natAbs < e.natAbs := by
  by_cases hep : 0 < e
  · rw [compensatePart, if_pos hep]
    have ht0 : 0 ≤ e.tdiv pc := Int.tdiv_nonneg (by omega) (by positivity)
    have ht1 : e.tdiv pc ≤ e := tdiv_le_of_pos e pc hep
    rcases le_total 1 (e.tdiv pc) with hmx | hmx
    · rw [max_eq_right hmx]
      refine ⟨by omega, fun _ => by omega, fun hcon => by omega, by omega⟩
    · rw [max_eq_left hmx]
      refine ⟨by omega, fun _ => by omega, fun hcon => by omega, by omega⟩
  · have hen : e < 0 := by omega
    rw [compensatePart, if_neg hep]
    have ht0 : e.tdiv pc ≤ 0 := by
      have h1 : 0 ≤ (-e).tdiv (pc : Int) := Int.tdiv_nonneg (by omega) (by positivity)
      rw [Int.neg_tdiv] at h1
      omega
    have ht1 : e ≤ e.tdiv pc := tdiv_ge_of_neg e pc hen
    rcases le_total (e.tdiv pc) (-1) with hmx | hmx
    · rw [min_eq_right hmx]
      refine ⟨by omega, fun hcon => by omega, fun _ => by omega, by omega⟩
    · rw [min_eq_left hmx]
      refine ⟨by omega, fun hcon => by omega, fun _ => by omega, by omega⟩

/-- Witness for the amended C4 theorem at `error = 3`, `partialCount = 2`. -/
theorem compensation_step_truncation_witness :
    (3:Int) ≠ 0 ∧ 0 < 2 ∧
    ((compensatePart 3 2).natAbs = max 1 (((3:Int).tdiv 2).natAbs) ∧
     (0 < (3:Int) → 0 < compensatePart 3 2) ∧
     ((3:Int) < 0 → compensatePart 3 2 < 0) ∧
     ((3:Int) - compensatePart 3 2).natAbs < (3:Int).natAbs) :=
  ⟨by decide, by decide, compensation_step_truncation 3 2 (by decide) (by decide)⟩

/-- C1: on the general path (percentage in `[0, FULL_PERCENTAGE]`, not the
last-version-disable case), the traffic shift succeeds and the final weight
map sums exactly to `FULL_PERCENTAGE = 200`. -/
theorem traffic_shift_conserves_total
    (dnsName id0 : String) (rr : List RouteRecord) (alls : List String)
    (versions : String → String) (p : Int) (known : WMap) (pc : Nat) (ps : Int)
    (hgw : get_weights dnsName id0 rr alls = (known, pc, ps))
    (hndm : (matchingIds dnsName rr).Nodup)
    (hp0 : 0 ≤ p) (hpF : p ≤ FULL_PERCENTAGE)
    (hpath : ¬(pc = 0 ∧ p = 0)) :
    ∃ res, change_version_traffic_core id0 versions known pc ps p = some res ∧
      res.removed = false ∧ sumW res.newWeights = FULL_PERCENTAGE ∧
      FULL_PERCENTAGE = 200 := by
  have hk : (get_weights dnsName id0 rr alls).1 = known := by rw [hgw]
  have hpcq : (get_weights dnsName id0 rr alls).2.1 = pc := by rw [hgw]
  have hnd : (keysOf known).Nodup := by
    rw [← hk]; exact get_weights_keys_nodup dnsName id0 rr alls
  have hid : id0 ∈ keysOf known := by
    rw [← hk]; exact get_weights_id_mem dnsName id0 rr alls
  by_cases hpc : pc = 0
  · have hpne : p ≠ 0 := fun h => hpath ⟨hpc, h⟩
    have hp : 0 < p := by omega
    subst hpc
    rw [core_promote_eq id0 versions known ps p hp hnd hid]
    refine ⟨_, rfl, rfl, ?_, by decide⟩
    show sumW (calculate_new_weights 0 id0 known FULL_PERCENTAGE).1 = FULL_PERCENTAGE
    exact sumW_calc_full 0 id0 known hnd hid
  · have hlive : p = 0 → ∃ i, i ≠ id0 ∧ 0 < lookupD known i := by
      intro _
      obtain ⟨i, hi, hposi⟩ := get_weights_pc_live dnsName id0 rr alls hndm
        (by rw [hpcq]; exact Nat.pos_of_ne_zero hpc)
      refine ⟨i, hi, ?_⟩
      rw [← hk]
      exact hposi
    obtain ⟨res, hres, hrem, hsum, _, _, _, _⟩ :=
      core_general_spec id0 versions known pc ps p hpc hnd hid hp0 hpF hlive
    exact ⟨res, hres, hrem, hsum, by decide⟩

/-- Witness for C1 at a concrete two-version snapshot with a 50% request. -/
theorem traffic_shift_conserves_total_witness :
    ∃ res, change_version_traffic_core "a-1" (fun v => v)
        [("a-1", 150), ("b-2", 50)] 1 50 100 = some res ∧
      res.removed = false ∧ sumW res.newWeights = FULL_PERCENTAGE ∧
      FULL_PERCENTAGE = 200 :=
  traffic_shift_conserves_total "d." "a-1"
    [⟨"CNAME", "d.", "a-1", 150, 20, "lb1"⟩, ⟨"CNAME", "d.", "b-2", 50, 20, "lb2"⟩]
    [] (fun v => v) 100 [("a-1", 150), ("b-2", 50)] 1 50
    (by decide) (by decide) (by decide) (by decide) (by decide)

/-- C2: a non-target identifier with positive old weight keeps weight at least
1 through allocation and compensation whenever the requested percentage is not
`FULL_PERCENTAGE`. -/
theorem traffic_shift_floor
    (dnsName id0 : String) (rr : List RouteRecord) (alls : List String)
    (versions : String → String) (p : Int) (known : WMap) (pc : Nat) (ps : Int)
    (i : String)
    (hgw : get_weights dnsName id0 rr alls = (known, pc, ps))
    (hi : i ≠ id0) (hw : 0 < lookupD known i)
    (hp0 : 0 ≤ p) (hpF : p ≤ FULL_PERCENTAGE) (hpne : p ≠ FULL_PERCENTAGE) :
    ∃ res, change_version_traffic_core id0 versions known pc ps p = some res ∧
      1 ≤ lookupD res.newWeights i := by
  have hk : (get_weights dnsName id0 rr alls).1 = known := by rw [hgw]
  have hpcq : (get_weights dnsName id0 rr alls).2.1 = pc := by rw [hgw]
  have hnd : (keysOf known).Nodup := by
    rw [← hk]; exact get_weights_keys_nodup dnsName id0 rr alls
  have hid : id0 ∈ keysOf known := by
    rw [← hk]; exact get_weights_id_mem dnsName id0 rr alls
  have hpc : pc ≠ 0 := by
    have hlive := get_weights_live_imp_pc dnsName id0 rr alls i hi
      (by rw [hk]; exact hw)
    rw [hpcq] at hlive
    omega
  obtain ⟨res, hres, _, _, _, _, _, hfloor⟩ :=
    core_general_spec id0 versions known pc ps p hpc hnd hid hp0 hpF
      (fun _ => ⟨i, hi, hw⟩)
  refine ⟨res, hres, ?_⟩
  rcases hfloor i hi with hcase | hcase
  · rw [hcase]
    exact lookupD_calc_live _ id0 known p i hi hw hpne
  · exact hcase

/-- Witness for C2: the non-target identifier `b-2` stays at weight ≥ 1. -/
theorem traffic_shift_floor_witness :
    ∃ res, change_version_traffic_core "a-1" (fun v => v)
        [("a-1", 150), ("b-2", 50)] 1 50 100 = some res ∧
      1 ≤ lookupD res.newWeights "b-2" :=
  traffic_shift_floor "d." "a-1"
    [⟨"CNAME", "d.", "a-1", 150, 20, "lb1"⟩, ⟨"CNAME", "d.", "b-2", 50, 20, "lb2"⟩]
    [] (fun v => v) 100 [("a-1", 150), ("b-2", 50)] 1 50 "b-2"
    (by decide) (by decide) (by decide) (by decide) (by decide) (by decide)

/-- C5 (amended): with `partialCount > 0`, the achieved percentage differs
from the request only through the warned boundary case of the compensation
loop, which shifts the target by exactly the residual error and records that
adjustment under the target identifier.  (With `partialCount = 0`, the
sole-survivor promotion also changes the percentage, without a warning.) -/
theorem boundary_surrender_exclusive_general_path
    (dnsName id0 : String) (rr : List RouteRecord) (alls : List String)
    (versions : String → String) (p : Int) (known : WMap) (pc : Nat) (ps : Int)
    (hgw : get_weights dnsName id0 rr alls = (known, pc, ps))
    (hndm : (matchingIds dnsName rr).Nodup)
    (hpc : 0 < pc) (hp0 : 0 ≤ p) (hpF : p ≤ FULL_PERCENTAGE) :
    ∃ res, change_version_traffic_core id0 versions known pc ps p = some res ∧
      res.removed = false ∧
      lookupD res.newWeights id0 = res.percentage ∧
      (res.warned = false → res.percentage = p) ∧
      (res.warned = true → res.percentage ≠ p ∧
        lookupD res.comps id0 = res.percentage - p) := by
  have hk : (get_weights dnsName id0 rr alls).1 = known := by rw [hgw]
  have hpcq : (get_weights dnsName id0 rr alls).2.1 = pc := by rw [hgw]
  have hnd : (keysOf known).Nodup := by
    rw [← hk]; exact get_weights_keys_nodup dnsName id0 rr alls
  have hid : id0 ∈ keysOf known := by
    rw [← hk]; exact get_weights_id_mem dnsName id0 rr alls
  have hlive : p = 0 → ∃ i, i ≠ id0 ∧ 0 < lookupD known i := by
    intro _
    obtain ⟨i, hi, hposi⟩ := get_weights_pc_live dnsName id0 rr alls hndm
      (by rw [hpcq]; exact hpc)
    refine ⟨i, hi, ?_⟩
    rw [← hk]
    exact hposi
  obtain ⟨res, hres, hrem, _, hlook, hwf, hwt, _⟩ :=
    core_general_spec id0 versions known pc ps p (by omega) hnd hid hp0 hpF hlive
  exact ⟨res, hres, hrem, hlook, hwf, hwt⟩

/-- Witness for the amended C5 on a concrete two-version snapshot. -/
theorem boundary_surrender_exclusive_general_path_witness :
    ∃ res, change_version_traffic_core "a-1" (fun v => v)
        [("a-1", 150), ("b-2", 50)] 1 50 100 = some res ∧
      res.removed = false ∧
      lookupD res.newWeights "a-1" = res.percentage ∧
      (res.warned = false → res.percentage = 100) ∧
      (res.warned = true → res.percentage ≠ 100 ∧
        lookupD res.comps "a-1" = res.percentage - 100) :=
  boundary_surrender_exclusive_general_path "d." "a-1"
    [⟨"CNAME", "d.", "a-1", 150, 20, "lb1"⟩, ⟨"CNAME", "d.", "b-2", 50, 20, "lb2"⟩]
    [] (fun v => v) 100 [("a-1", 150), ("b-2", 50)] 1 50
    (by decide) (by decide) (by decide) (by decide) (by decide)

/-- C5 counterexample to exclusivity over the whole operation: on the
sole-survivor path (`partialCount = 0`, request 50% = 100 units) the achieved
percentage becomes 200 while no warning is emitted, so the boundary case is
not the only way the achieved percentage can differ from the request. -/
theorem sole_survivor_changes_percentage_without_warning :
    get_weights "d." "a-1" [⟨"CNAME", "d.", "a-1", 200, 20, "lb"⟩] [] =
      ([("a-1", 200)], 0, 0) ∧
    (change_version_traffic_core "a-1" (fun v => v) [("a-1", 200)] 0 0 100).map
      (fun res => (res.percentage, res.warned)) = some (200, false) ∧
    (200 : Int) ≠ 100 := by
  decide

/-- C7: with `partialCount = 0` and a positive request, the allocator delta is
0, the target is promoted to `FULL_PERCENTAGE`, the gap
`FULL_PERCENTAGE - percentage` is recorded as a compensation on the target,
and no warning is emitted. -/
theorem sole_survivor_promote_spec
    (dnsName id0 : String) (rr : List RouteRecord) (alls : List String)
    (versions : String → String) (p : Int) (known : WMap) (ps : Int)
    (hgw : get_weights dnsName id0 rr alls = (known, 0, ps))
    (hp : 0 < p) :
    ∃ res, change_version_traffic_core id0 versions known 0 ps p = some res ∧
      res.delta = 0 ∧ lookupD res.newWeights id0 = FULL_PERCENTAGE ∧
      lookupD res.comps id0 = FULL_PERCENTAGE - p ∧ res.warned = false := by
  have hk : (get_weights dnsName id0 rr alls).1 = known := by rw [hgw]
  have hnd : (keysOf known).Nodup := by
    rw [← hk]; exact get_weights_keys_nodup dnsName id0 rr alls
  have hid : id0 ∈ keysOf known := by
    rw [← hk]; exact get_weights_id_mem dnsName id0 rr alls
  rw [core_promote_eq id0 versions known ps p hp hnd hid]
  refine ⟨_, rfl, rfl, ?_, ?_, rfl⟩
  · show lookupD (calculate_new_weights 0 id0 known FULL_PERCENTAGE).1 id0 = FULL_PERCENTAGE
    exact lookupD_calc_id 0 id0 known FULL_PERCENTAGE hid
  · show lookupD [(id0, FULL_PERCENTAGE - p)] id0 = FULL_PERCENTAGE - p
    exact lookupD_singleton_self id0 _

/-- Witness for C7: one live version at full weight, 50% requested. -/
theorem sole_survivor_promote_spec_witness :
    ∃ res, change_version_traffic_core "a-1" (fun v => v) [("a-1", 200)] 0 0 100 =
        some res ∧
      res.delta = 0 ∧ lookupD res.newWeights "a-1" = FULL_PERCENTAGE ∧
      lookupD res.comps "a-1" = FULL_PERCENTAGE - 100 ∧ res.warned = false :=
  sole_survivor_promote_spec "d." "a-1" [⟨"CNAME", "d.", "a-1", 200, 20, "lb"⟩]
    [] (fun v => v) 100 [("a-1", 200)] 0 (by decide) (by decide)

/-- C3 failing run: identifier `a-C` has weight 0 before the operation, yet
after a shift of `a-T` to 1% the compensation loop hands `a-C` the whole
rounding error: its final weight is 1 and a compensation of 1 is recorded for
it.  This contradicts the docstring of `compensate` ("we do not allow to add
any values to the already disabled versions (0)") and the no-resurrection
comment in `calculate_new_weights`. -/
theorem compensation_resurrects_zero_weight_version :
    get_weights "d." "a-T"
      [⟨"CNAME", "d.", "a-T", 3, 20, "lbT"⟩, ⟨"CNAME", "d.", "a-B", 101, 20, "lbB"⟩,
       ⟨"CNAME", "d.", "a-D", 96, 20, "lbD"⟩, ⟨"CNAME", "d.", "a-C", 0, 20, "lbC"⟩] [] =
      ([("a-T", 3), ("a-B", 101), ("a-D", 96), ("a-C", 0)], 2, 197) ∧
    (change_version_traffic_core "a-T"
        (fun i => if i = "a-C" then "3" else if i = "a-B" then "2"
                  else if i = "a-D" then "1" else "4")
        [("a-T", 3), ("a-B", 101), ("a-D", 96), ("a-C", 0)] 2 197 2).map
      (fun res => (lookupD res.newWeights "a-C", lookupD res.comps "a-C")) =
      some (1, 1) := by
  decide

theorem some_sink_inj {cs cs2 : List Change} {rs rs2 : List RouteRecord}
    {rp rp2 : SinkReport}
    (h : (some (cs2, rs2, rp2) : Option (List Change × List RouteRecord × SinkReport)) =
      some (cs, rs, rp)) :
    cs2 = cs ∧ rs2 = rs ∧ rp2 = rp := by
  injection h with h1
  injection h1 with hc h2
  injection h2 with hr hd
  exact ⟨hc, hr, hd⟩

theorem set_new_weights_run (dnsName id0 lb : String) (newW : WMap)
    (rr : List RouteRecord) (wid : Int)
    (hlid : lookupOpt newW id0 = some wid)
    (cs : List Change) (rs : List RouteRecord) (du : Bool)
    (hb : build_changes dnsName id0 newW rr = some (cs, rs, du)) :
    ∃ cs1 rep, set_new_weights dnsName id0 lb newW rr = some (cs1, rs, rep) ∧
      (cs1 = cs ∨
        cs1 = cs ++ [Change.mk ChangeAction.upsert (freshRecord dnsName id0 lb wid)]) ∧
      (¬(0 < wid ∧ du = false) → cs1 = cs) ∧
      (cs1 = [] → rep = SinkReport.notChanged) ∧
      (cs1 ≠ [] → sumW newW = 0 → rep = SinkReport.disabled) := by
  rw [set_new_weights, hlid, hb]
  dsimp only
  by_cases hsyn : 0 < wid ∧ du = false
  · rw [if_pos hsyn]
    by_cases hemp : cs ++ [Change.mk ChangeAction.upsert (freshRecord dnsName id0 lb wid)] = []
    · rw [if_pos hemp]
      exact ⟨_, _, rfl, Or.inr rfl, fun hcon => absurd hsyn hcon,
        fun _ => rfl, fun _ _ => absurd hemp (by simp)⟩
    · rw [if_neg hemp]
      by_cases hs0 : sumW newW = 0
      · rw [if_pos hs0]
        exact ⟨_, _, rfl, Or.inr rfl, fun hcon => absurd hsyn hcon,
          fun hcon => absurd hcon hemp, fun _ _ => rfl⟩
      · rw [if_neg hs0]
        exact ⟨_, _, rfl, Or.inr rfl, fun hcon => absurd hsyn hcon,
          fun hcon => absurd hcon hemp, fun _ hcon => absurd hcon hs0⟩
  · rw [if_neg hsyn]
    by_cases hemp : cs = []
    · rw [if_pos hemp]
      exact ⟨_, _, rfl, Or.inl rfl, fun _ => rfl, fun _ => rfl,
        fun hcon => absurd hemp hcon⟩
    · rw [if_neg hemp]
      by_cases hs0 : sumW newW = 0
      · rw [if_pos hs0]
        exact ⟨_, _, rfl, Or.inl rfl, fun _ => rfl,
          fun hcon => absurd hcon hemp, fun _ _ => rfl⟩
      · rw [if_neg hs0]
        exact ⟨_, _, rfl, Or.inl rfl, fun _ => rfl,
          fun hcon => absurd hcon hemp, fun _ hcon => absurd hcon hs0⟩

/-- C6: at `targetPercentage = FULL_PERCENTAGE` every non-target identifier
ends at weight 0 and the target at `FULL_PERCENTAGE`; the change batch holds a
DELETE for every existing matching non-target record, and the only UPSERT it
may hold is for the target. -/
theorem full_cutover_spec
    (dnsName id0 lb : String) (rr : List RouteRecord) (alls : List String)
    (versions : String → String) (known : WMap) (pc : Nat) (ps : Int)
    (hgw : get_weights dnsName id0 rr alls = (known, pc, ps)) :
    ∃ res cs1 rs rep,
      change_version_traffic_core id0 versions known pc ps FULL_PERCENTAGE =
        some res ∧
      lookupD res.newWeights id0 = FULL_PERCENTAGE ∧
      (∀ i, i ≠ id0 → lookupD res.newWeights i = 0) ∧
      set_new_weights dnsName id0 lb res.newWeights rr = some (cs1, rs, rep) ∧
      (∀ r ∈ rr, matchesRecord dnsName r → r.setIdentifier ≠ id0 →
        Change.mk ChangeAction.delete r ∈ cs1) ∧
      (∀ ch ∈ cs1, ch.action = ChangeAction.upsert → ch.record.setIdentifier = id0) := by
  have hk : (get_weights dnsName id0 rr alls).1 = known := by rw [hgw]
  have hnd : (keysOf known).Nodup := by
    rw [← hk]; exact get_weights_keys_nodup dnsName id0 rr alls
  have hid : id0 ∈ keysOf known := by
    rw [← hk]; exact get_weights_id_mem dnsName id0 rr alls
  have hcore : ∃ res dlt, change_version_traffic_core id0 versions known pc ps
      FULL_PERCENTAGE = some res ∧
      res.newWeights = (calculate_new_weights dlt id0 known FULL_PERCENTAGE).1 := by
    by_cases hpc : pc = 0
    · subst hpc
      rw [core_promote_eq id0 versions known ps FULL_PERCENTAGE (by decide) hnd hid]
      exact ⟨_, 0, rfl, rfl⟩
    · rw [core_full_eq id0 versions known pc ps hpc hnd hid]
      exact ⟨_, _, rfl, rfl⟩
  obtain ⟨res, dlt, hres, hresW⟩ := hcore
  have hlookid : lookupD res.newWeights id0 = FULL_PERCENTAGE := by
    rw [hresW]; exact lookupD_calc_id dlt id0 known FULL_PERCENTAGE hid
  have hzero : ∀ i, i ≠ id0 → lookupD res.newWeights i = 0 := by
    intro i hi
    rw [hresW]; exact lookupD_calc_full_nontarget dlt id0 known i hi
  have hmemW : ∀ r ∈ rr, matchesRecord dnsName r →
      r.setIdentifier ∈ keysOf res.newWeights := by
    intro r hr hm
    rw [hresW, keysOf_calc, ← hk]
    exact get_weights_matching_mem dnsName id0 rr alls r hr hm
  have hidW : id0 ∈ keysOf res.newWeights := by
    rw [hresW, keysOf_calc]; exact hid
  obtain ⟨⟨cs, rs, du⟩, hb⟩ := build_changes_some dnsName id0 res.newWeights rr hmemW
  have hzlk : ∀ r ∈ rr, matchesRecord dnsName r → r.setIdentifier ≠ id0 →
      lookupOpt res.newWeights r.setIdentifier = some 0 := by
    intro r hr hm hne
    rw [lookupOpt_eq_some_lookupD _ _ (hmemW r hr hm), hzero r.setIdentifier hne]
  have hlid : lookupOpt res.newWeights id0 = some FULL_PERCENTAGE := by
    rw [lookupOpt_eq_some_lookupD _ _ hidW, hlookid]
  obtain ⟨cs1, rep, hrun, hcs1, _, _, _⟩ :=
    set_new_weights_run dnsName id0 lb res.newWeights rr FULL_PERCENTAGE hlid cs rs du hb
  refine ⟨res, cs1, rs, rep, hres, hlookid, hzero, hrun, ?_, ?_⟩
  · intro r hr hm hne
    have hmem := build_changes_delete_mem dnsName id0 res.newWeights rr cs rs du hb
      r hr hm (hzlk r hr hm hne)
    rcases hcs1 with rfl | rfl
    · exact hmem
    · exact List.mem_append_left _ hmem
  · intro ch hch hact
    have hbase := build_changes_upsert_target dnsName id0 res.newWeights rr cs rs du hb hzlk
    rcases hcs1 with rfl | rfl
    · exact hbase ch hch hact
    · rcases List.mem_append.1 hch with hch2 | hch2
      · exact hbase ch hch2 hact
      · rcases List.mem_singleton.1 hch2 with rfl
        rfl

/-- Witness for C6 on a concrete two-version snapshot. -/
theorem full_cutover_spec_witness :
    ∃ res cs1 rs rep,
      change_version_traffic_core "a-1" (fun v => v) [("a-1", 150), ("b-2", 50)]
        1 50 FULL_PERCENTAGE = some res ∧
      lookupD res.newWeights "a-1" = FULL_PERCENTAGE ∧
      (∀ i, i ≠ "a-1" → lookupD res.newWeights i = 0) ∧
      set_new_weights "d." "a-1" "lb" res.newWeights
        [⟨"CNAME", "d.", "a-1", 150, 20, "lb1"⟩, ⟨"CNAME", "d.", "b-2", 50, 20, "lb2"⟩] =
        some (cs1, rs, rep) ∧
      (∀ r ∈ [⟨"CNAME", "d.", "a-1", 150, 20, "lb1"⟩,
              (⟨"CNAME", "d.", "b-2", 50, 20, "lb2"⟩ : RouteRecord)],
        matchesRecord "d." r → r.setIdentifier ≠ "a-1" →
        Change.mk ChangeAction.delete r ∈ cs1) ∧
      (∀ ch ∈ cs1, ch.action = ChangeAction.upsert → ch.record.setIdentifier = "a-1") :=
  full_cutover_spec "d." "a-1" "lb"
    [⟨"CNAME", "d.", "a-1", 150, 20, "lb1"⟩, ⟨"CNAME", "d.", "b-2", 50, 20, "lb2"⟩]
    [] (fun v => v) [("a-1", 150), ("b-2", 50)] 1 50 (by decide)

/-- C8: with `partialCount = 0` and requested percentage 0 the disable path
runs: every weight is forced to 0 without the allocator or the compensation
engine, the change batch holds only DELETE actions, and a non-empty batch is
reported as DISABLED. -/
theorem last_version_disable_spec
    (dnsName id0 lb : String) (rr : List RouteRecord) (alls : List String)
    (versions : String → String) (known : WMap) (ps : Int)
    (hgw : get_weights dnsName id0 rr alls = (known, 0, ps)) :
    ∃ res cs1 rs rep,
      change_version_traffic_core id0 versions known 0 ps 0 = some res ∧
      res.removed = true ∧
      (∀ i, lookupD res.newWeights i = 0) ∧
      set_new_weights dnsName id0 lb res.newWeights rr = some (cs1, rs, rep) ∧
      (∀ ch ∈ cs1, ch.action = ChangeAction.delete) ∧
      (cs1 ≠ [] → rep = SinkReport.disabled) := by
  have hk : (get_weights dnsName id0 rr alls).1 = known := by rw [hgw]
  have hid : id0 ∈ keysOf known := by
    rw [← hk]; exact get_weights_id_mem dnsName id0 rr alls
  rw [core_disable_eq id0 versions known ps]
  have hz : ∀ i, lookupD (known.map fun q => (q.1, (0:Int))) i = 0 :=
    fun i => lookupD_mapVal_zero known i
  have hkeys0 : keysOf (known.map fun q => (q.1, (0:Int))) = keysOf known := by
    simp [keysOf]
  have hmemW : ∀ r ∈ rr, matchesRecord dnsName r →
      r.setIdentifier ∈ keysOf (known.map fun q => (q.1, (0:Int))) := by
    intro r hr hm
    rw [hkeys0, ← hk]
    exact get_weights_matching_mem dnsName id0 rr alls r hr hm
  have hidW : id0 ∈ keysOf (known.map fun q => (q.1, (0:Int))) := by
    rw [hkeys0]; exact hid
  obtain ⟨⟨cs, rs, du⟩, hb⟩ :=
    build_changes_some dnsName id0 (known.map fun q => (q.1, (0:Int))) rr hmemW
  have hlid : lookupOpt (known.map fun q => (q.1, (0:Int))) id0 = some 0 := by
    rw [lookupOpt_eq_some_lookupD _ _ hidW, hz]
  have hzlk : ∀ r ∈ rr, matchesRecord dnsName r →
      lookupOpt (known.map fun q => (q.1, (0:Int))) r.setIdentifier = some 0 := by
    intro r hr hm
    rw [lookupOpt_eq_some_lookupD _ _ (hmemW r hr hm), hz]
  obtain ⟨cs1, rep, hrun, _, hnosyn, _, hdis⟩ :=
    set_new_weights_run dnsName id0 lb (known.map fun q => (q.1, (0:Int))) rr 0
      hlid cs rs du hb
  have hcs1 : cs1 = cs := hnosyn (fun hcon => by omega)
  have hsum0 : sumW (known.map fun q => (q.1, (0:Int))) = 0 :=
    sumW_mapVal_zero known (fun _ _ => (0:Int)) (fun _ _ => rfl)
  refine ⟨_, cs1, rs, rep, rfl, rfl, hz, hrun, ?_, fun hne => hdis hne hsum0⟩
  intro ch hch
  rw [hcs1] at hch
  exact build_changes_all_delete dnsName id0 _ rr cs rs du hb hzlk ch hch

/-- Witness for C8: a single live version disabled to 0%. -/
theorem last_version_disable_spec_witness :
    ∃ res cs1 rs rep,
      change_version_traffic_core "a-1" (fun v => v) [("a-1", 200)] 0 0 0 = some res ∧
      res.removed = true ∧
      (∀ i, lookupD res.newWeights i = 0) ∧
      set_new_weights "d." "a-1" "lb" res.newWeights
        [⟨"CNAME", "d.", "a-1", 200, 20, "lb"⟩] = some (cs1, rs, rep) ∧
      (∀ ch ∈ cs1, ch.action = ChangeAction.delete) ∧
      (cs1 ≠ [] → rep = SinkReport.disabled) :=
  last_version_disable_spec "d." "a-1" "lb" [⟨"CNAME", "d.", "a-1", 200, 20, "lb"⟩]
    [] (fun v => v) [("a-1", 200)] 0 (by decide)

/-- C9 counterexample: running the change-set builder a second time on the
same final map, after the first run's in-place record mutations, does not
yield an empty batch: the record whose final weight is 0 is still present in
the mutated record list, so its DELETE is emitted again. -/
theorem change_set_second_run_not_empty :
    (set_new_weights "d." "a-1" "lb" [("a-1", 200), ("b-2", 0)]
        [⟨"CNAME", "d.", "a-1", 100, 20, "lb"⟩,
         ⟨"CNAME", "d.", "b-2", 100, 20, "lb"⟩]).bind
      (fun out => set_new_weights "d." "a-1" "lb" [("a-1", 200), ("b-2", 0)] out.2.1) =
      some ([Change.mk ChangeAction.delete ⟨"CNAME", "d.", "b-2", 100, 20, "lb"⟩],
            [⟨"CNAME", "d.", "a-1", 200, 20, "lb"⟩,
             ⟨"CNAME", "d.", "b-2", 100, 20, "lb"⟩],
            SinkReport.applied) ∧
    [Change.mk ChangeAction.delete ⟨"CNAME", "d.", "b-2", 100, 20, "lb"⟩] ≠
      ([] : List Change) := by
  decide

/-- C9 (amended): when every matching record's final weight is non-zero and
the target identifier has a matching record, running `set_new_weights` a
second time on the mutated record list produces an empty change list and the
"not changed" report. -/
theorem change_set_idempotent_when_positive
    (dnsName id0 lb : String) (newW : WMap) (rr : List RouteRecord)
    (cs1 : List Change) (rs1 : List RouteRecord) (rep1 : SinkReport)
    (hpos : ∀ r ∈ rr, matchesRecord dnsName r →
      ∃ w, lookupOpt newW r.setIdentifier = some w ∧ w ≠ 0)
    (htgt : ∃ r ∈ rr, matchesRecord dnsName r ∧ r.setIdentifier = id0)
    (hrun : set_new_weights dnsName id0 lb newW rr = some (cs1, rs1, rep1)) :
    set_new_weights dnsName id0 lb newW rs1 = some ([], rs1, SinkReport.notChanged) := by
  obtain ⟨rt, hrt, hmt, hsidt⟩ := htgt
  obtain ⟨wt, hlkt, hwt⟩ := hpos rt hrt hmt
  have hlid : lookupOpt newW id0 = some wt := by rw [← hsidt]; exact hlkt
  rw [set_new_weights, hlid] at hrun
  cases hb : build_changes dnsName id0 newW rr with
  | none =>
    rw [hb] at hrun
    dsimp only at hrun
    cases hrun
  | some out =>
    rcases out with ⟨cs, rs, du⟩
    rw [hb] at hrun
    dsimp only at hrun
    have hdu : du = true := build_changes_du_target dnsName id0 newW rr cs rs du hb
      ⟨rt, hrt, hmt, hsidt, wt, hlkt, hwt⟩
    rw [hdu] at hrun
    have hinner : ∀ base : List Change,
        (if 0 < wt ∧ true = false then
          base ++ [Change.mk ChangeAction.upsert (freshRecord dnsName id0 lb wt)]
        else base) = base :=
      fun base => if_neg (fun hcon => by simpa using hcon.2)
    rw [hinner cs] at hrun
    have hrs : rs1 = rs := by
      by_cases hemp : cs = []
      · rw [if_pos hemp] at hrun
        exact ((some_sink_inj hrun).2.1).symm
      · rw [if_neg hemp] at hrun
        by_cases hs0 : sumW newW = 0
        · rw [if_pos hs0] at hrun
          exact ((some_sink_inj hrun).2.1).symm
        · rw [if_neg hs0] at hrun
          exact ((some_sink_inj hrun).2.1).symm
    have hb2 : build_changes dnsName id0 newW rs = some ([], rs, du) :=
      build_changes_idempotent dnsName id0 newW rr cs rs du hb hpos
    rw [hrs, set_new_weights, hlid, hb2, hdu]
    dsimp only
    rw [hinner [], if_pos rfl]

/-- Witness for the amended C9: both records keep positive final weight, so
the second builder run is an empty batch. -/
theorem change_set_idempotent_when_positive_witness :
    set_new_weights "d." "a-1" "lb" [("a-1", 150), ("b-2", 50)]
      [⟨"CNAME", "d.", "a-1", 200, 20, "lb"⟩,
       ⟨"CNAME", "d.", "b-2", 40, 20, "lb"⟩] =
      some ([Change.mk ChangeAction.upsert ⟨"CNAME", "d.", "a-1", 150, 20, "lb"⟩,
             Change.mk ChangeAction.upsert ⟨"CNAME", "d.", "b-2", 50, 20, "lb"⟩],
            [⟨"CNAME", "d.", "a-1", 150, 20, "lb"⟩,
             ⟨"CNAME", "d.", "b-2", 50, 20, "lb"⟩],
            SinkReport.applied) ∧
    set_new_weights "d." "a-1" "lb" [("a-1", 150), ("b-2", 50)]
      [⟨"CNAME", "d.", "a-1", 150, 20, "lb"⟩,
       ⟨"CNAME", "d.", "b-2", 50, 20, "lb"⟩] =
      some ([], [⟨"CNAME", "d.", "a-1", 150, 20, "lb"⟩,
                 ⟨"CNAME", "d.", "b-2", 50, 20, "lb"⟩], SinkReport.notChanged) :=
  ⟨by decide,
   change_set_idempotent_when_positive "d." "a-1" "lb" [("a-1", 150), ("b-2", 50)]
     [⟨"CNAME", "d.", "a-1", 200, 20, "lb"⟩, ⟨"CNAME", "d.", "b-2", 40, 20, "lb"⟩]
     [Change.mk ChangeAction.upsert ⟨"CNAME", "d.", "a-1", 150, 20, "lb"⟩,
      Change.mk ChangeAction.upsert ⟨"CNAME", "d.", "b-2", 50, 20, "lb"⟩]
     [⟨"CNAME", "d.", "a-1", 150, 20, "lb"⟩, ⟨"CNAME", "d.", "b-2", 50, 20, "lb"⟩]
     SinkReport.applied
     (by decide)
     ⟨⟨"CNAME", "d.", "a-1", 200, 20, "lb"⟩, by decide, by decide, by decide⟩
     (by decide)⟩

/-- C10: the caller-supplied percentage is scaled by
`int(percentage * PERCENT_RESOLUTION)`, which truncates toward zero (floor on
the non-negative range), so any request strictly between 0 and half a percent
becomes an internal request for 0 and, when no other identifier is live
(`partial_count = 0`), takes the last-version-disable path. -/
theorem requested_percentage_truncation
    (dnsName id0 : String) (rr : List RouteRecord) (alls : List String)
    (versions : String → String) (p : ℚ)
    (h0 : 0 < p) (h1 : p < 1/2)
    (hpc : (get_weights dnsName id0 rr alls).2.1 = 0) :
    (∀ q : ℚ, 0 ≤ q →
      int_trunc (q * (PERCENT_RESOLUTION : ℚ)) = ⌊q * (PERCENT_RESOLUTION : ℚ)⌋) ∧
    int_trunc (p * (PERCENT_RESOLUTION : ℚ)) = 0 ∧
    ∃ res, change_version_traffic_model id0 versions p dnsName rr alls = some res ∧
      res.removed = true := by
  have hPR : ((PERCENT_RESOLUTION : Int) : ℚ) = 2 := by norm_num [PERCENT_RESOLUTION]
  have htr : ∀ q : ℚ, 0 ≤ q →
      int_trunc (q * (PERCENT_RESOLUTION : ℚ)) = ⌊q * (PERCENT_RESOLUTION : ℚ)⌋ := by
    intro q hq
    rw [int_trunc, if_pos (by rw [hPR]; exact mul_nonneg hq (by norm_num))]
  have h2 : int_trunc (p * (PERCENT_RESOLUTION : ℚ)) = 0 := by
    rw [htr p (le_of_lt h0), Int.floor_eq_zero_iff, hPR, Set.mem_Ico]
    constructor
    · exact mul_nonneg (le_of_lt h0) (by norm_num)
    · linarith
  refine ⟨htr, h2, ?_⟩
  have hmod : change_version_traffic_model id0 versions p dnsName rr alls =
      change_version_traffic_core id0 versions (get_weights dnsName id0 rr alls).1
        (get_weights dnsName id0 rr alls).2.1 (get_weights dnsName id0 rr alls).2.2
        (int_trunc (p * (PERCENT_RESOLUTION : ℚ))) := rfl
  rw [hmod, h2, hpc, core_disable_eq]
  exact ⟨_, rfl, rfl⟩

/-- Witness for C10 at a 0.25% request against an empty record set. -/
theorem requested_percentage_truncation_witness :
    (∀ q : ℚ, 0 ≤ q →
      int_trunc (q * (PERCENT_RESOLUTION : ℚ)) = ⌊q * (PERCENT_RESOLUTION : ℚ)⌋) ∧
    int_trunc ((1/4 : ℚ) * (PERCENT_RESOLUTION : ℚ)) = 0 ∧
    ∃ res, change_version_traffic_model "a-1" (fun v => v) (1/4) "d." [] [] =
        some res ∧ res.removed = true :=
  requested_percentage_truncation "d." "a-1" [] [] (fun v => v) (1/4)
    (by norm_num) (by norm_num) (by decide)
